import Mathlib

/-!
Verification development for the edu-chunker core: the HTML-block offset
bookkeeping (`src/parser/html_parser.py`), the token strategies
(`src/chunking/strategies.py`) and the chunk builder
(`src/chunking/chunk_builder.py`).

Texts are modelled as `List Char`.  The `simple` token-counting strategy
(class `SimpleStrategy`) counts regex matches of `\w+|[^\w\s]`: every maximal
run of word characters is one token and every character that is neither a
word character nor whitespace is one token.  Word characters are modelled as
ASCII alphanumerics plus underscore and whitespace as the ASCII whitespace
characters (the Python code uses the Unicode classes; on the ASCII fragment
the two agree, and all concrete inputs below are ASCII).
-/

namespace EduChunker

abbrev Str := List Char

/-- Python regex `\w` (ASCII fragment): letters, digits, underscore. -/
def isWordChar (c : Char) : Bool := c.isAlphanum || c == '_'

/-- Python `str.isspace` / regex `\s` (ASCII fragment). -/
def isSpaceChar (c : Char) : Bool :=
  c == ' ' || c == '\t' || c == '\n' || c == '\r' || c == '\x0b' || c == '\x0c'

/-- `SimpleStrategy.count_tokens`, auxiliary scan.  The boolean records
whether the previous character belonged to a `\w+` run. -/
def simpleCountAux : Str → Bool → Nat
  | [], _ => 0
  | c :: cs, inw =>
    if isWordChar c then (if inw then 0 else 1) + simpleCountAux cs true
    else if isSpaceChar c then simpleCountAux cs false
    else 1 + simpleCountAux cs false

/-- `SimpleStrategy.count_tokens`: `len(re.findall(r'\w+|[^\w\s]', text))`. -/
def simpleCount (t : Str) : Nat := simpleCountAux t false

/-- Python `str.lstrip()` (whitespace). -/
def lstrip (s : Str) : Str := s.dropWhile isSpaceChar

/-- Python `str.rstrip()` (whitespace). -/
def rstrip (s : Str) : Str := (s.reverse.dropWhile isSpaceChar).reverse

/-- Python `str.strip()` (whitespace). -/
def strip (s : Str) : Str := lstrip (rstrip s)

/-- Python `str.split()` with no argument: split on whitespace runs,
dropping empty pieces.  `acc` is the current word, reversed. -/
def splitWordsAux : Str → Str → List Str
  | [], acc => if acc.isEmpty then [] else [acc.reverse]
  | c :: cs, acc =>
    if isSpaceChar c then
      if acc.isEmpty then splitWordsAux cs [] else acc.reverse :: splitWordsAux cs []
    else splitWordsAux cs (c :: acc)

/-- Python `text.split()`. -/
def splitWords (t : Str) : List Str := splitWordsAux t []

/-- `sep.join(parts)`. -/
def joinSep (sep : Str) : List Str → Str
  | [] => []
  | [x] => x
  | x :: xs => x ++ sep ++ joinSep sep xs

/-- `' '.join(parts)`. -/
def joinSpace (l : List Str) : Str := joinSep [' '] l

/-- Length of the maximal leading run satisfying `p`. -/
def countWhile (p : Char → Bool) : Str → Nat
  | [] => 0
  | c :: cs => if p c then countWhile p cs + 1 else 0

/-- Sentence-end characters of `_SENT_END_RE`: `[.!?…]`. -/
def isSentEnder (c : Char) : Bool := c == '.' || c == '!' || c == '?' || c == '…'

/-- Closing quotes/brackets of `_SENT_END_RE`: `[)\]"'»]`. -/
def isCloser (c : Char) : Bool :=
  c == ')' || c == ']' || c == '"' || c == '\'' || c == '»'

/-- Match `_SENT_END_RE` (`[.!?…]+(?:[)\]"'»]+)?(?:\s+|$)`) at the head of
`s`.  Returns `(length without trailing whitespace, total match length)`.
Greedy maximal runs coincide with the regex because the three character
classes are pairwise disjoint, so backtracking can never recover a match. -/
def matchSentEnd (s : Str) : Option (Nat × Nat) :=
  match s with
  | [] => none
  | c :: _ =>
    if isSentEnder c then
      let e := countWhile isSentEnder s
      let rest1 := s.drop e
      let cl := countWhile isCloser rest1
      let rest2 := rest1.drop cl
      match rest2 with
      | [] => some (e + cl, e + cl)
      | d :: _ =>
        if isSpaceChar d then some (e + cl, e + cl + countWhile isSpaceChar rest2)
        else none
    else none

/-- Leftmost match of `_SENT_END_RE` in `s`:
`(start position, length without trailing whitespace, total length)`. -/
def findSentMatch : Str → Option (Nat × Nat × Nat)
  | [] => none
  | s@(_ :: cs) =>
    match matchSentEnd s with
    | some (n, t) => some (0, n, t)
    | none =>
      match findSentMatch cs with
      | some (p, n, t) => some (p + 1, n, t)
      | none => none

/-- Iteration of `_SENT_END_RE.finditer` in `_split_sentences_regex`.
Each step consumes at least one character (an ender), so fuel
`s.length + 1` always suffices; scanning the suffix is equivalent to
resuming `finditer` at `m.end()`. -/
def splitSentencesGo : Nat → Str → List Str → List Str
  | 0, _, acc => acc.reverse
  | fuel + 1, s, acc =>
    match findSentMatch s with
    | none =>
      let tail := strip s
      (if tail.isEmpty then acc else tail :: acc).reverse
    | some (p, nws, tot) =>
      let sent := strip (s.take (p + nws))
      splitSentencesGo fuel (s.drop (p + tot))
        (if sent.isEmpty then acc else sent :: acc)

/-- `_split_sentences_regex` — the default (`SENTENCE_SPLITTER=regex`)
backend of `split_into_sentences`. -/
def splitIntoSentences (t : Str) : List Str :=
  let t := strip t
  if t.isEmpty then [] else splitSentencesGo (t.length + 1) t []

/-! ### `ChunkingStrategy` methods

The methods of the abstract base class are parametrised by the strategy's
`count_tokens`, exactly as they only access `self.count_tokens` in the
source.  Instantiating `count := simpleCount` gives the `simple` strategy. -/

/-- Loop of `ChunkingStrategy._split_by_words`:  state is the remaining
words, current buffer, the buffer's token sum and the emitted parts. -/
def splitByWordsGo (count : Str → Nat) (m : Nat) :
    List Str → List Str → Nat → List Str → List Str
  | [], buf, _, parts => if buf.isEmpty then parts else parts ++ [joinSpace buf]
  | w :: ws, buf, bufTok, parts =>
    let wt := count w
    if bufTok + wt > m && !buf.isEmpty then
      splitByWordsGo count m ws [w] wt (parts ++ [joinSpace buf])
    else
      splitByWordsGo count m ws (buf ++ [w]) (bufTok + wt) parts

/-- `ChunkingStrategy._split_by_words`. -/
def splitByWords (count : Str → Nat) (t : Str) (m : Nat) : List Str :=
  splitByWordsGo count m (splitWords t) [] 0 []

/-- Loop of `ChunkingStrategy.split_text` over the sentence list. -/
def splitTextGo (count : Str → Nat) (m : Nat) :
    List Str → List Str → Nat → List Str → List Str
  | [], buf, _, parts => if buf.isEmpty then parts else parts ++ [joinSpace buf]
  | s :: ss, buf, bufTok, parts =>
    let st := count s
    if st > m then
      let parts1 := if buf.isEmpty then parts else parts ++ [joinSpace buf]
      splitTextGo count m ss [] 0 (parts1 ++ splitByWords count s m)
    else if bufTok + st > m then
      splitTextGo count m ss [s] st (parts ++ [joinSpace buf])
    else
      splitTextGo count m ss (buf ++ [s]) (bufTok + st) parts

/-- `ChunkingStrategy.split_text`. -/
def splitText (count : Str → Nat) (t : Str) (m : Nat) : List Str :=
  splitTextGo count m (splitIntoSentences t) [] 0 []

/-- Result of the sentence loop in `take_prefix`: either the loop finished or
broke with the sentences taken so far and the rest, or the oversized-sentence
branch returned early with an explicit `(prefix, remainder)` pair. -/
inductive TakeRes where
  | broke (taken rest : List Str)
  | early (pfx rem : Str)

/-- `' '.join(s.strip() for s in l if s.strip())` as used in `take_prefix`. -/
def joinStripped (l : List Str) : Str :=
  joinSpace ((l.map strip).filter (fun s => !s.isEmpty))

/-- Sentence loop of `ChunkingStrategy.take_prefix`; `t` is the full input
text (needed by the `return "", text` fallback of the word-split branch). -/
def takeLeadGo (count : Str → Nat) (m : Nat) (mustTake : Bool) (t : Str) :
    List Str → List Str → Nat → TakeRes
  | [], taken, _ => .broke taken []
  | s :: rest, taken, used =>
    let st := count s
    if st > m then
      if !mustTake then .broke taken (s :: rest)
      else
        match splitByWords count s m with
        | [] => .early [] t
        | w0 :: wrest =>
          let pfx := strip w0
          let remWords := if wrest.isEmpty then [] else strip (joinSpace wrest)
          let remTail := joinStripped rest
          let rem :=
            strip (joinSpace (([remWords, remTail]).filter (fun x => !x.isEmpty)))
          .early pfx rem
    else if used + st ≤ m then takeLeadGo count m mustTake t rest (taken ++ [s]) (used + st)
    else .broke taken (s :: rest)

/-- The word-splitting fallback shared by the `not sentences` branch and the
`not prefix and must_take` branch of `take_prefix`. -/
def wordFallback (count : Str → Nat) (t : Str) (m : Nat) : Str × Str :=
  let wp := splitByWords count t m
  (strip (wp.headD []), if wp.length > 1 then strip (joinSpace wp.tail) else [])

/-- `ChunkingStrategy.take_prefix(text, max_tokens, must_take)`. -/
def takeLead (count : Str → Nat) (t : Str) (m : Nat) (mustTake : Bool) : Str × Str :=
  if t.isEmpty then ([], [])
  else
    let sents := splitIntoSentences t
    if sents.isEmpty then
      if mustTake then wordFallback count t m else ([], t)
    else
      match takeLeadGo count m mustTake t sents [] 0 with
      | .early p r => (p, r)
      | .broke taken rest =>
        let pfx := joinStripped taken |> strip
        let rem := joinStripped rest |> strip
        if pfx.isEmpty && mustTake then wordFallback count t m
        else (pfx, rem)

/-! ### Data model (`confluence/models.py`)

Block and heading ids are the strings `EDU:{page_id}-{index}`; they are
modelled as a `page × index` pair (the formatting is injective for a fixed
page, and all comparisons in the pipeline happen within one page). -/

structure Bid where
  page : Str
  num : Nat
deriving DecidableEq, Repr

/-- `ContentBlock`.  `text_length` is maintained the way `__post_init__`
and `_materialize_block_split` maintain it (`len(text)`).  -/
structure ContentBlock where
  index : Nat
  id : Bid
  block_type : Str
  text : Str
  xpath : Str := []
  css_selector : Str := []
  text_offset : Nat := 0
  text_length : Nat := 0
  parent_heading_id : Option Bid := none
  html_id : Option Str := none
deriving DecidableEq, Repr

instance : Inhabited ContentBlock :=
  ⟨{ index := 0, id := ⟨[], 0⟩, block_type := [], text := [] }⟩

/-- The dataclass constructor: `__post_init__` sets `text_length = len(text)`. -/
def mkContentBlock (index : Nat) (id : Bid) (block_type text xpath css_selector : Str)
    (text_offset : Nat) (parent_heading_id : Option Bid) (html_id : Option Str) :
    ContentBlock :=
  { index, id, block_type, text, xpath, css_selector, text_offset,
    text_length := text.length, parent_heading_id, html_id }

/-- `HeadingInfo`. -/
structure HeadingInfo where
  level : Nat
  text : Str
  block_id : Bid
  block_index : Nat
  html_id : Option Str := none
deriving DecidableEq, Repr

instance : Inhabited HeadingInfo := ⟨{ level := 1, text := [], block_id := ⟨[], 0⟩, block_index := 0 }⟩

/-- The serialisable fragment dict built by `ChunkBuilder._make_fragment`. -/
structure Fragment where
  block_index : Nat
  block_id : Bid
  block_type : Str
  xpath : Str
  css_selector : Str
  html_id : Option Str
  text_offset : Nat
  text_length : Nat
  fragment_start : Nat
  fragment_end : Nat
  text : Str
deriving DecidableEq, Repr

instance : Inhabited Fragment :=
  ⟨{ block_index := 0, block_id := ⟨[], 0⟩, block_type := [], xpath := [],
     css_selector := [], html_id := none, text_offset := 0, text_length := 0,
     fragment_start := 0, fragment_end := 0, text := [] }⟩

/-- `chunk_id` format `EDU:{page_id}:{first}-{last}[@{start}-{end}]`,
modelled structurally (again injective formatting for a fixed page). -/
structure ChunkId where
  page : Str
  first : Nat
  last : Nat
  span : Option (Nat × Nat)
deriving DecidableEq, Repr

/-- `Chunk`.  The `highlight_metadata` dict is modelled by its individual
keys; the navigation URL (string formatting plus `urllib.parse.quote`) is
not modelled — no claim mentions it. -/
structure Chunk where
  chunk_id : ChunkId
  page_id : Str
  space_key : Str
  page_title : Str
  page_version : Nat
  last_modified : Str
  block_indices : List Nat
  core_block_indices : List Nat
  overlap_prev_block_indices : List Nat
  overlap_next_block_indices : List Nat
  full_heading_hierarchy : List Str
  text_heading_hierarchy : List Str
  nearest_heading_id : Option Str
  normalized_text : Str
  overlap_prev_text : Str
  overlap_next_text : Str
  full_text : Str
  embedding_text : Str
  xpath_start : Str
  css_selector_start : Str
  text_offset_start : Nat
  text_length : Nat
  -- highlight_metadata keys
  text_fragment : Str
  hm_block_type : Str
  hm_text_offset : Nat
  first_block_html_id : Option Str
  nearest_heading_html_id : Option Str
  core_fragments : List Fragment
  overlap_prev_fragments : List Fragment
  overlap_next_fragments : List Fragment
  chunk_id_base : ChunkId
deriving DecidableEq, Repr

instance : Inhabited Chunk :=
  ⟨{ chunk_id := ⟨[], 0, 0, none⟩, page_id := [], space_key := [], page_title := [],
     page_version := 0, last_modified := [], block_indices := [],
     core_block_indices := [], overlap_prev_block_indices := [],
     overlap_next_block_indices := [], full_heading_hierarchy := [],
     text_heading_hierarchy := [], nearest_heading_id := none,
     normalized_text := [], overlap_prev_text := [], overlap_next_text := [],
     full_text := [], embedding_text := [], xpath_start := [],
     css_selector_start := [], text_offset_start := 0, text_length := 0,
     text_fragment := [], hm_block_type := [], hm_text_offset := 0,
     first_block_html_id := none, nearest_heading_html_id := none,
     core_fragments := [], overlap_prev_fragments := [],
     overlap_next_fragments := [], chunk_id_base := ⟨[], 0, 0, none⟩ }⟩

/-- `_PendingBlock` (the legacy carried-remainder state). -/
structure PendingBlock where
  block_pos : Nat
  remaining_text : Str
  start_char : Nat
deriving DecidableEq, Repr

/-- Constructor arguments of `ChunkBuilder` (validated configuration). -/
structure BuildCfg where
  chunk_size : Nat
  chunk_overlap : Nat
  max_heading_levels : Nat
  include_page_tag : Bool
  include_section_tag : Bool
deriving DecidableEq, Repr

/-! ### Heading dictionaries

`heading_idx : Dict[int, HeadingInfo]` keyed by block index.  Python dicts
keep insertion order and overwrite in place; `hdictInsert` reproduces that,
so `hdictValues` is exactly `heading_idx.values()`. -/

abbrev HDict := List (Nat × HeadingInfo)

def hdictInsert (d : HDict) (k : Nat) (v : HeadingInfo) : HDict :=
  if d.any (fun e => e.1 == k) then
    d.map (fun e => if e.1 == k then (k, v) else e)
  else d ++ [(k, v)]

def hdictContains (d : HDict) (k : Nat) : Bool := d.any (fun e => e.1 == k)

def hdictFind (d : HDict) (k : Nat) : Option HeadingInfo :=
  (d.find? (fun e => e.1 == k)).map (·.2)

def hdictValues (d : HDict) : List HeadingInfo := d.map (·.2)

/-- The set `{f"h{i}" for i in range(1, 7)}`, applied to the lowercased
`block_type`. -/
def isHeadingType (bt : Str) : Bool :=
  let lowered := bt.map Char.toLower
  [('h', '1'), ('h', '2'), ('h', '3'), ('h', '4'), ('h', '5'), ('h', '6')].any
    (fun p => lowered == [p.1, p.2])

/-- `int(bt[1])` for a heading tag (guarded by `isHeadingType`, so the
`try/except` in `_build_heading_idx_from_blocks` never fires). -/
def headingLevel (bt : Str) : Nat :=
  match bt.map Char.toLower with
  | [_, d] => d.toNat - '0'.toNat
  | _ => 0

/-- `ChunkBuilder._build_heading_idx_from_blocks`. -/
def buildHeadingIdxFromBlocks (blocks : List ContentBlock) : HDict :=
  blocks.foldl
    (fun idx b =>
      if isHeadingType b.block_type then
        hdictInsert idx b.index
          { level := headingLevel b.block_type, text := b.text, block_id := b.id,
            block_index := b.index, html_id := b.html_id }
      else idx) []

/-- The dict `{h.block_index: h for h in headings}` used by
`normalize_blocks_for_chunking`. -/
def hdictFromHeadings (headings : List HeadingInfo) : HDict :=
  headings.foldl (fun idx h => hdictInsert idx h.block_index h) []

/-! ### Heading hierarchy (`_build_heading_hierarchy` / `_climb_hierarchy`) -/

/-- Body of the `best`-selection loop of `_climb_hierarchy`: keep `best`
unless `h` is a candidate that beats it (`best is None or
h.block_index > best.block_index`). -/
def pickStep (cur : HeadingInfo) : Option HeadingInfo → HeadingInfo → Option HeadingInfo
  | none, h =>
    if h.level < cur.level && h.block_index < cur.block_index then some h else none
  | some b, h =>
    if h.level < cur.level && h.block_index < cur.block_index then
      if h.block_index > b.block_index then some h else some b
    else some b

/-- The `best`-selection loop of `_climb_hierarchy` over
`heading_idx.values()`. -/
def pickBest (vals : List HeadingInfo) (cur : HeadingInfo) : Option HeadingInfo :=
  vals.foldl (pickStep cur) none

/-- The climbing loop of `_climb_hierarchy`, as the chain of headings
visited.  Each step strictly decreases `block_index`, so fuel
`start.block_index + 1` always runs the loop to completion. -/
def climbChainGo (idx : HDict) : Nat → HeadingInfo → List HeadingInfo
  | 0, cur => [cur]
  | fuel + 1, cur =>
    cur ::
      match pickBest (hdictValues idx) cur with
      | none => []
      | some b => climbChainGo idx fuel b

/-- `_climb_hierarchy(start, heading_idx)` (list of heading records;
the source returns their texts, see `climbTexts`). -/
def climbChain (idx : HDict) (start : HeadingInfo) : List HeadingInfo :=
  climbChainGo idx (start.block_index + 1) start

/-- `_climb_hierarchy` as in the source: the texts along the chain,
least-important heading first. -/
def climbTexts (idx : HDict) (start : HeadingInfo) : List Str :=
  (climbChain idx start).map (·.text)

/-- `_build_heading_hierarchy(chunk_blocks, heading_idx)`.  The
`if first.parent_heading_id:` truthiness test is `isSome` here because block
ids are always non-empty strings. -/
def buildHeadingHierarchy (cfg : BuildCfg) (chunk_blocks : List ContentBlock)
    (idx : HDict) : List Str × List Str × Option Str :=
  match chunk_blocks with
  | [] => ([], [], none)
  | first :: _ =>
    match hdictFind idx first.index with
    | some h =>
      let hierarchy := climbTexts idx h
      (hierarchy, hierarchy.take cfg.max_heading_levels, h.html_id)
    | none =>
      match first.parent_heading_id with
      | none => ([], [], none)
      | some pid =>
        match (hdictValues idx).find? (fun h => h.block_id == pid) with
        | none => ([], [], none)
        | some h =>
          let hierarchy := climbTexts idx h
          (hierarchy, hierarchy.take cfg.max_heading_levels, h.html_id)

/-! ### Texts and budgets -/

def nlSep : Str := ['\n']
def gtSep : Str := " > ".toList
def pageTagPre : Str := "[PAGE] ".toList
def sectionTagPre : Str := "[SECTION] ".toList
def textTagPre : Str := "[TEXT] ".toList

/-- `ChunkBuilder._build_embedding_text`. -/
def buildEmbeddingText (cfg : BuildCfg) (page_title : Str) (hierarchy : List Str)
    (chunk_text : Str) : Str :=
  let parts :=
    (if cfg.include_page_tag then [pageTagPre ++ page_title] else []) ++
    (if cfg.include_section_tag && !hierarchy.isEmpty then
      [sectionTagPre ++ joinSep gtSep hierarchy] else [])
  if parts.isEmpty then strip chunk_text
  else joinSep nlSep (parts ++ [textTagPre ++ strip chunk_text])

/-- `ChunkBuilder._estimate_tags_tokens_exact`.  Returns
`(tag tokens, full hierarchy, truncated hierarchy, nearest heading html id)`. -/
def estimateTagsTokensExact (count : Str → Nat) (cfg : BuildCfg) (page_title : Str)
    (blocks : List ContentBlock) (start : Nat) (heading_idx : HDict)
    (ov_prev_indices : List Nat) : Nat × List Str × List Str × Option Str :=
  let first_block :=
    match ov_prev_indices with
    | i :: _ => blocks.getD i default
    | [] => blocks.getD start default
  let r := buildHeadingHierarchy cfg [first_block] heading_idx
  let text_hier := r.2.1
  let parts :=
    (if cfg.include_page_tag then [pageTagPre ++ page_title] else []) ++
    (if cfg.include_section_tag && !text_hier.isEmpty then
      [sectionTagPre ++ joinSep gtSep text_hier] else [])
  let parts := if !parts.isEmpty then parts ++ [textTagPre] else parts
  (count (joinSep nlSep parts), r.1, text_hier, r.2.2)

/-! ### Fragments, overlap, splits -/

/-- `ChunkBuilder._make_fragment`. -/
def makeFragment (block : ContentBlock) (text : Str) (start_char end_char : Nat) :
    Fragment :=
  { block_index := block.index, block_id := block.id, block_type := block.block_type,
    xpath := block.xpath, css_selector := block.css_selector, html_id := block.html_id,
    text_offset := block.text_offset + start_char, text_length := text.length,
    fragment_start := start_char, fragment_end := end_char, text := text }

/-- `_dedupe_preserve_order`. -/
def dedupeGo : List Nat → List Nat → List Nat
  | [], _ => []
  | x :: xs, seen =>
    if seen.contains x then dedupeGo xs seen else x :: dedupeGo xs (seen ++ [x])

def dedupePreserveOrder (l : List Nat) : List Nat := dedupeGo l []

/-- Take trailing parts of `parts` (given reversed) while they fit, used by
`_extract_partial_text` with `from_end=True`; `acc` keeps original order. -/
def extractFromEndGo (count : Str → Nat) : List Str → Nat → List Str → List Str
  | [], _, acc => acc
  | p :: ps, budget, acc =>
    if count p ≤ budget then extractFromEndGo count ps (budget - count p) (p :: acc)
    else acc

/-- Take leading parts of `parts` while they fit (`from_end=False`). -/
def extractFromFrontGo (count : Str → Nat) : List Str → Nat → List Str → List Str
  | [], _, acc => acc
  | p :: ps, budget, acc =>
    if count p ≤ budget then extractFromFrontGo count ps (budget - count p) (acc ++ [p])
    else acc

/-- `ChunkBuilder._extract_partial_text`. -/
def extractPartialText (count : Str → Nat) (text : Str) (max_tokens : Nat)
    (from_end : Bool) : Str :=
  let parts := splitText count text max_tokens
  if parts.isEmpty then []
  else if from_end then
    let r := extractFromEndGo count parts.reverse max_tokens []
    if !r.isEmpty then joinSpace r else (parts.getLastD []).take 200
  else
    let r := extractFromFrontGo count parts max_tokens []
    if !r.isEmpty then joinSpace r else (parts.headD []).take 200

/-- Loop of `ChunkBuilder._collect_overlap_text` (the `remaining <= 0`
check is `remaining == 0` over `Nat`).  The source computes
`idx = int(frag.get('block_index') or -1)` and skips on `idx < 0 or not
text`: a fragment whose `block_index` is `0` is falsy in Python, so `idx`
becomes `-1` and the fragment is skipped along with empty-text ones —
block 0 never contributes to an overlap. -/
def collectOverlapGo (count : Str → Nat) (from_end : Bool) :
    List Fragment → Nat → List (Nat × Str) → List Fragment →
    List (Nat × Str) × List Fragment
  | [], _, pairs, cfrags => (pairs, cfrags)
  | frag :: rest, remaining, pairs, cfrags =>
    if remaining == 0 then (pairs, cfrags)
    else if frag.block_index == 0 || frag.text.isEmpty then
      collectOverlapGo count from_end rest remaining pairs cfrags
    else
      let bt := count frag.text
      if bt ≤ remaining then
        collectOverlapGo count from_end rest (remaining - bt)
          (pairs ++ [(frag.block_index, frag.text)]) (cfrags ++ [frag])
      else
        let part_ := extractPartialText count frag.text remaining from_end
        if !part_.isEmpty then
          (pairs ++ [(frag.block_index, part_)], cfrags ++ [{ frag with text := part_ }])
        else (pairs, cfrags)

/-- `ChunkBuilder._collect_overlap_text`. -/
def collectOverlapText (count : Str → Nat) (cfg : BuildCfg)
    (source_fragments : List Fragment) (from_end : Bool) :
    List Nat × Str × List Fragment :=
  if source_fragments.isEmpty || cfg.chunk_overlap == 0 then ([], [], [])
  else
    let frags := if from_end then source_fragments.reverse else source_fragments
    let (pairs, cfrags) := collectOverlapGo count from_end frags cfg.chunk_overlap [] []
    if pairs.isEmpty then ([], [], [])
    else
      let pairs2 := if from_end then pairs.reverse else pairs
      let cfrags2 := if from_end then cfrags.reverse else cfrags
      (dedupePreserveOrder (pairs2.map (·.1)), joinSpace (pairs2.map (·.2)), cfrags2)

/-! ### Re-indexing (`_recompute_text_offsets`, `_materialize_block_split`) -/

def recomputeGo : List ContentBlock → Nat → List ContentBlock
  | [], _ => []
  | b :: bs, off => { b with text_offset := off } :: recomputeGo bs (off + b.text.length + 1)

/-- `ChunkBuilder._recompute_text_offsets`. -/
def recomputeTextOffsets (blocks : List ContentBlock) : List ContentBlock :=
  recomputeGo blocks 0

def bidAssocFind (m : List (Bid × Bid)) (k : Bid) : Option Bid :=
  (m.find? (fun e => e.1 == k)).map (·.2)

/-- The pointwise parent-id remapping of step 3 of the normalizer and of the
tail fix-up of `_materialize_block_split`: route `parent_heading_id` through
the old→new id map when it has an entry there. -/
def remapParent (m : List (Bid × Bid)) (nb : ContentBlock) : ContentBlock :=
  match nb.parent_heading_id with
  | some pid =>
    match bidAssocFind m pid with
    | some nid => { nb with parent_heading_id := some nid }
    | none => nb
  | none => nb

/-- Tail re-indexing step 3 of `_materialize_block_split`: renumber from
position `j`, collecting the old→new id map for headings. -/
def reindexTailGo (page_id : Str) : List ContentBlock → Nat →
    List ContentBlock × List (Bid × Bid)
  | [], _ => ([], [])
  | b :: bs, j =>
    let b' := { b with index := j, id := (⟨page_id, j⟩ : Bid) }
    let (rest, m) := reindexTailGo page_id bs (j + 1)
    (b' :: rest,
     (if isHeadingType b.block_type then [(b.id, b'.id)] else []) ++ m)

/-- `ChunkBuilder._materialize_block_split`. -/
def materializeBlockSplit (blocks : List ContentBlock) (split_pos : Nat)
    (pfx_text rem_text : Str) (page_id : Str) : List ContentBlock :=
  let cur := blocks.getD split_pos default
  let blocks1 := blocks.set split_pos
    { cur with text := pfx_text, text_length := pfx_text.length }
  let remainder_block := mkContentBlock (split_pos + 1) ⟨page_id, split_pos + 1⟩
    cur.block_type rem_text cur.xpath cur.css_selector 0 cur.parent_heading_id cur.html_id
  let blocks2 := blocks1.take (split_pos + 1) ++ [remainder_block] ++ blocks1.drop (split_pos + 1)
  let hd := blocks2.take (split_pos + 1)
  let (tail2, idMap) := reindexTailGo page_id (blocks2.drop (split_pos + 1)) (split_pos + 1)
  let tail3 :=
    if idMap.isEmpty then tail2
    else tail2.map (remapParent idMap)
  recomputeTextOffsets (hd ++ tail3)

/-! ### One chunk (`ChunkBuilder._build_one_chunk`) -/

/-- State of the core-collection `while` loop of `_build_one_chunk`:
the (possibly re-written) block list, the cursor `i`, the remaining
`budget`, the pending legacy state, and the accumulated core fragments,
block indices and texts. -/
structure CoreState where
  blocks : List ContentBlock
  i : Nat
  budget : Nat
  pending : Option PendingBlock
  frags : List Fragment
  inds : List Nat
  txts : List Str
deriving Repr

/-- The `while i < len(blocks) and budget > 0` loop of `_build_one_chunk`.
Each iteration advances the cursor, breaks, or (in the unreachable legacy
`pending` branch) strictly decreases the budget, so any sufficiently large
fuel computes the loop's exit state; the invariants proved below hold for
every fuel. -/
def collectCoreGo (count : Str → Nat) (page_id : Str) :
    Nat → CoreState → CoreState
  | 0, st => st
  | fuel + 1, st =>
    if st.i < st.blocks.length && 0 < st.budget then
      let block := st.blocks.getD st.i default
      let ct :=
        match st.pending with
        | some p => if p.block_pos == st.i then (p.remaining_text, p.start_char)
                    else (block.text, 0)
        | none => (block.text, 0)
      let cur_text := ct.1
      let frag_start := ct.2
      if cur_text.isEmpty then
        collectCoreGo count page_id fuel { st with pending := none, i := st.i + 1 }
      else
        let bt := count cur_text
        if bt ≤ st.budget then
          collectCoreGo count page_id fuel
            { st with
              txts := st.txts ++ [cur_text],
              frags := st.frags ++ [makeFragment block cur_text frag_start (frag_start + cur_text.length)],
              inds := if st.inds.contains block.index then st.inds else st.inds ++ [block.index],
              budget := st.budget - bt, pending := none, i := st.i + 1 }
        else
          let fr := takeLead count cur_text st.budget st.txts.isEmpty
          let frag_text := fr.1
          let remainder := fr.2
          if frag_text.isEmpty then st
          else
            let frag_end := frag_start + frag_text.length
            let st1 :=
              { st with
                txts := st.txts ++ [frag_text],
                frags := st.frags ++ [makeFragment block frag_text frag_start frag_end],
                inds := if st.inds.contains block.index then st.inds else st.inds ++ [block.index],
                budget := st.budget - count frag_text }
            if !remainder.isEmpty then
              match st.pending with
              | some _ =>
                collectCoreGo count page_id fuel
                  { st1 with pending := some ⟨st.i, remainder, frag_end + 1⟩ }
              | none =>
                { st1 with
                  blocks := materializeBlockSplit st1.blocks st.i frag_text remainder page_id,
                  pending := none, i := st.i + 1 }
            else
              collectCoreGo count page_id fuel { st1 with pending := none, i := st.i + 1 }
    else st

/-- Chunk assembly at the end of `_build_one_chunk` (everything after the
`if not core_texts` early return). -/
def mkChunk (cfg : BuildCfg) (page_id page_title space_key : Str)
    (page_version : Nat) (last_modified : Str) (st : CoreState)
    (pre_full pre_text : List Str) (pre_nearest : Option Str)
    (ov_prev_indices : List Nat) (ov_prev_text : Str)
    (ov_prev_frags : List Fragment) : Chunk :=
  let normalized_text := joinSpace st.txts
  let full_text :=
    joinSpace ((if !ov_prev_text.isEmpty then [ov_prev_text] else []) ++ [normalized_text])
  let embedding_text := buildEmbeddingText cfg page_title pre_text full_text
  let first_frag := st.frags.headD default
  let ov_prev_filtered := ov_prev_indices.filter (fun idx => !st.inds.contains idx)
  let all_indices := dedupePreserveOrder (ov_prev_filtered ++ st.inds)
  let base : ChunkId := ⟨page_id, st.inds.headD 0, st.inds.getLastD 0, none⟩
  let text_offset_start := first_frag.text_offset
  let text_length := normalized_text.length
  let is_partial := first_frag.fragment_start != 0 || st.pending.isSome
  { chunk_id :=
      if is_partial then { base with span := some (text_offset_start, text_offset_start + text_length) }
      else base,
    page_id, space_key, page_title, page_version, last_modified,
    block_indices := all_indices,
    core_block_indices := st.inds,
    overlap_prev_block_indices := ov_prev_filtered,
    overlap_next_block_indices := [],
    full_heading_hierarchy := pre_full,
    text_heading_hierarchy := pre_text,
    nearest_heading_id := pre_nearest,
    normalized_text, overlap_prev_text := ov_prev_text,
    overlap_next_text := [],
    full_text, embedding_text,
    xpath_start := first_frag.xpath,
    css_selector_start := first_frag.css_selector,
    text_offset_start, text_length,
    text_fragment := normalized_text.take 100,
    hm_block_type := first_frag.block_type,
    hm_text_offset := first_frag.text_offset,
    first_block_html_id := first_frag.html_id,
    nearest_heading_html_id := pre_nearest,
    core_fragments := st.frags,
    overlap_prev_fragments := ov_prev_frags,
    overlap_next_fragments := [],
    chunk_id_base := base }

/-- The prev-overlap computation at the top of `_build_one_chunk`
(`if prev_chunk and self.chunk_overlap > 0`). -/
def prevOverlapOf (count : Str → Nat) (cfg : BuildCfg) (prev_chunk : Option Chunk) :
    List Nat × Str × List Fragment :=
  match prev_chunk with
  | some pc =>
    if 0 < cfg.chunk_overlap then collectOverlapText count cfg pc.core_fragments true
    else ([], [], [])
  | none => ([], [], [])

/-- The budget computation with its degradation ladder (`if budget <= 0`
three levels deep): returns the possibly-dropped prev-overlap indices and
text, and the content budget.  Python's signed arithmetic with
`budget <= 0` tests coincides with truncated `Nat` subtraction compared
with `0`. -/
def degradeBudget (cfg : BuildCfg) (tags_tokens ov_prev_tokens : Nat)
    (ov_prev_indices : List Nat) (ov_prev_text : Str) : List Nat × Str × Nat :=
  let next_ov_reserve := cfg.chunk_overlap
  let b1 := cfg.chunk_size - tags_tokens - ov_prev_tokens - next_ov_reserve
  if b1 = 0 then
    let b2 := cfg.chunk_size - tags_tokens - next_ov_reserve
    if b2 = 0 then
      let b3 := cfg.chunk_size - tags_tokens
      if b3 = 0 then ([], [], max 10 (cfg.chunk_size / 4))
      else ([], [], b3)
    else ([], [], b2)
  else (ov_prev_indices, ov_prev_text, b1)

/-- `ChunkBuilder._build_one_chunk`.  Returns
`(chunk?, next position, pending, blocks after the call)` — the block list
is returned because `_materialize_block_split` rewrites it in place. -/
def buildOneChunk (count : Str → Nat) (cfg : BuildCfg) (fuel : Nat)
    (blocks : List ContentBlock) (start : Nat) (heading_idx : HDict)
    (page_id page_title space_key : Str) (page_version : Nat)
    (last_modified : Str) (prev_chunk : Option Chunk)
    (pending0 : Option PendingBlock) :
    Option Chunk × Nat × Option PendingBlock × List ContentBlock :=
  let ov0 := prevOverlapOf count cfg prev_chunk
  let est := estimateTagsTokensExact count cfg page_title blocks start heading_idx ov0.1
  let deg := degradeBudget cfg est.1 (count ov0.2.1) ov0.1 ov0.2.1
  let st := collectCoreGo count page_id fuel ⟨blocks, start, deg.2.2, pending0, [], [], []⟩
  if st.txts.isEmpty then (none, st.blocks.length, none, st.blocks)
  else
    (some (mkChunk cfg page_id page_title space_key page_version last_modified st
            est.2.1 est.2.2.1 est.2.2.2 deg.1 deg.2.1 ov0.2.2),
     st.i, st.pending, st.blocks)

/-! ### Pass 2 (`_apply_next_overlap`, `_rebuild_texts`) and `build_chunks` -/

/-- `ChunkBuilder._rebuild_texts`. -/
def rebuildTexts (cfg : BuildCfg) (page_title : Str) (c : Chunk) : Chunk :=
  let parts :=
    (if !c.overlap_prev_text.isEmpty then [c.overlap_prev_text] else []) ++
    [c.normalized_text] ++
    (if !c.overlap_next_text.isEmpty then [c.overlap_next_text] else [])
  let full_text := joinSpace parts
  { c with full_text,
           embedding_text := buildEmbeddingText cfg page_title c.text_heading_hierarchy full_text }

/-- Update of `cur` from `nxt` inside the `_apply_next_overlap` loop. -/
def applyNextTo (count : Str → Nat) (cfg : BuildCfg) (page_title : Str)
    (cur nxt : Chunk) : Chunk :=
  let ov := collectOverlapText count cfg nxt.core_fragments false
  let ov_indices := ov.1
  let ov_text := ov.2.1
  let ov_frags := ov.2.2
  if ov_text.isEmpty then cur
  else
    let filtered := ov_indices.filter (fun idx => !cur.core_block_indices.contains idx)
    let cur1 :=
      { cur with
        overlap_next_block_indices := filtered,
        overlap_next_text := ov_text,
        overlap_next_fragments := ov_frags,
        block_indices :=
          cur.block_indices ++ filtered.filter (fun idx => !cur.block_indices.contains idx) }
    rebuildTexts cfg page_title cur1

/-- `ChunkBuilder._apply_next_overlap`: every chunk but the last pulls a
forward overlap from its successor's core fragments (which the pass never
modifies, so reading the already-updated list equals reading the input). -/
def applyNextOverlap (count : Str → Nat) (cfg : BuildCfg) (page_title : Str) :
    List Chunk → List Chunk
  | [] => []
  | [c] => [c]
  | c :: nxt :: rest =>
    applyNextTo count cfg page_title c nxt :: applyNextOverlap count cfg page_title (nxt :: rest)

/-- Pass 1 of `build_chunks`: the `while pos < len(blocks)` loop.  The fuel
also bounds the inner loop of each `_build_one_chunk` call. -/
def buildLoop (count : Str → Nat) (cfg : BuildCfg)
    (page_id page_title space_key : Str) (page_version : Nat)
    (last_modified : Str) :
    Nat → List ContentBlock → Nat → Option PendingBlock → List Chunk →
    List Chunk × List ContentBlock
  | 0, blocks, _, _, chunks => (chunks, blocks)
  | fuel + 1, blocks, pos, pending, chunks =>
    if pos < blocks.length then
      let hidx := buildHeadingIdxFromBlocks blocks
      let r := buildOneChunk count cfg fuel blocks pos hidx page_id page_title
        space_key page_version last_modified chunks.getLast? pending
      buildLoop count cfg page_id page_title space_key page_version last_modified
        fuel r.2.2.2 r.2.1 r.2.2.1
        (match r.1 with | some c => chunks ++ [c] | none => chunks)
    else (chunks, blocks)

/-- `ChunkBuilder.build_chunks`, also returning the block list as it stands
after the call (the list is rewritten in place whenever a split is
materialized).  The `headings` argument is accepted and ignored exactly as
in the source, which rebuilds the heading index from `blocks` on every
iteration. -/
def buildChunksFull (count : Str → Nat) (cfg : BuildCfg) (fuel : Nat)
    (blocks : List ContentBlock) (headings : List HeadingInfo)
    (page_id page_title space_key : Str) (page_version : Nat)
    (last_modified : Str) : List Chunk × List ContentBlock :=
  let _ := headings
  if blocks.isEmpty then ([], blocks)
  else
    let r := buildLoop count cfg page_id page_title space_key page_version
      last_modified fuel blocks 0 none []
    let chunks := if 0 < cfg.chunk_overlap then applyNextOverlap count cfg page_title r.1 else r.1
    (chunks, r.2)

/-- `ChunkBuilder.build_chunks` (the returned chunk list). -/
def buildChunks (count : Str → Nat) (cfg : BuildCfg) (fuel : Nat)
    (blocks : List ContentBlock) (headings : List HeadingInfo)
    (page_id page_title space_key : Str) (page_version : Nat)
    (last_modified : Str) : List Chunk :=
  (buildChunksFull count cfg fuel blocks headings page_id page_title space_key
    page_version last_modified).1

/-! ### Normalizer (`ChunkBuilder.normalize_blocks_for_chunking`) -/

/-- The local `_Piece` dataclass of `normalize_blocks_for_chunking`. -/
structure Piece where
  orig_index : Nat
  orig_id : Bid
  orig_parent_heading_id : Option Bid
  block_type : Str
  text : Str
  xpath : Str
  css_selector : Str
  html_id : Option Str
deriving DecidableEq, Repr

def pieceOf (b : ContentBlock) (text : Str) : Piece :=
  { orig_index := b.index, orig_id := b.id,
    orig_parent_heading_id := b.parent_heading_id, block_type := b.block_type,
    text, xpath := b.xpath, css_selector := b.css_selector, html_id := b.html_id }

/-- The empty-chunk budget computed by `normalize_blocks_for_chunking` for
the block at position `pos`: `max(10, chunk_size - tags - 2*overlap)`.
Truncated `Nat` subtraction agrees with the signed computation because the
result is floored at `10`. -/
def normBudget (count : Str → Nat) (cfg : BuildCfg) (blocks : List ContentBlock)
    (headings : List HeadingInfo) (page_title : Str) (pos : Nat) : Nat :=
  let est := estimateTagsTokensExact count cfg page_title blocks pos
    (hdictFromHeadings headings) []
  max 10 (cfg.chunk_size - est.1 - 2 * cfg.chunk_overlap)

/-- Step 1 of the normalizer for the block `b` at position `pos`: the pieces
it contributes. -/
def normPiecesAt (count : Str → Nat) (cfg : BuildCfg) (blocks : List ContentBlock)
    (headings : List HeadingInfo) (page_title : Str) (pos : Nat)
    (b : ContentBlock) : List Piece :=
  if (strip b.text).isEmpty then []
  else if isHeadingType b.block_type then [pieceOf b b.text]
  else
    let budget := normBudget count cfg blocks headings page_title pos
    if count b.text ≤ budget then [pieceOf b b.text]
    else
      let parts := splitText count b.text budget
      let parts := if parts.isEmpty then [b.text] else parts
      ((parts.map strip).filter (fun p => !p.isEmpty)).map (pieceOf b)

/-- All pieces, in page order (`for pos, b in enumerate(blocks)`). -/
def normPieces (count : Str → Nat) (cfg : BuildCfg) (blocks : List ContentBlock)
    (headings : List HeadingInfo) (page_title : Str) : List Piece :=
  blocks.enum.flatMap
    (fun pb => normPiecesAt count cfg blocks headings page_title pb.1 pb.2)

/-- Step 2 of the normalizer: re-index the pieces, recompute offsets and
collect the old→new heading id/index maps.  Lookups into the maps read the
reversed lists so that a duplicate key behaves like Python's dict
(last assignment wins); in reachable states keys are unique. -/
def normReindexGo (page_id : Str) : List Piece → Nat → Nat →
    List ContentBlock × List (Bid × Bid) × List (Nat × Nat)
  | [], _, _ => ([], [], [])
  | p :: ps, new_index, off =>
    let new_id : Bid := ⟨page_id, new_index⟩
    let nb := mkContentBlock new_index new_id p.block_type p.text p.xpath
      p.css_selector off p.orig_parent_heading_id p.html_id
    let r := normReindexGo page_id ps (new_index + 1) (off + p.text.length + 1)
    (nb :: r.1,
     (if isHeadingType p.block_type then [(p.orig_id, new_id)] else []) ++ r.2.1,
     (if isHeadingType p.block_type then [(p.orig_index, new_index)] else []) ++ r.2.2)

def natAssocFind (m : List (Nat × Nat)) (k : Nat) : Option Nat :=
  (m.find? (fun e => e.1 == k)).map (·.2)

/-- `ChunkBuilder.normalize_blocks_for_chunking`. -/
def normalizeBlocksForChunking (count : Str → Nat) (cfg : BuildCfg)
    (blocks : List ContentBlock) (headings : List HeadingInfo)
    (page_id page_title : Str) : List ContentBlock × List HeadingInfo :=
  if blocks.isEmpty then ([], [])
  else
    let pieces := normPieces count cfg blocks headings page_title
    let r := normReindexGo page_id pieces 0 0
    let idMap := r.2.1.reverse
    let ixMap := r.2.2.reverse
    -- step 3: remap parent_heading_id through the old→new id map
    let new_blocks := r.1.map (remapParent idMap)
    -- step 4: rebuild the headings list (`block_index` lookup cannot miss
    -- when the `block_id` lookup succeeded: both entries come from the same
    -- re-indexing step)
    let new_headings := headings.filterMap (fun h =>
      match bidAssocFind idMap h.block_id with
      | none => none
      | some nid =>
        some { level := h.level, text := h.text, block_id := nid,
               block_index := (natAssocFind ixMap h.block_index).getD 0,
               html_id := h.html_id })
    (new_blocks, new_headings)

/-! ### Extractor offset bookkeeping (`HTMLParser._create_block`)

The DOM traversal itself is driven by an external HTML library; what the
parser module owns is the state threaded through `_create_block` (and the
heading stack updated by `_process_heading`).  Every emitted block, whatever
the traversal produced, passes through `_create_block`, so the parser is
modelled as this fold over the sequence of emitted `(text, tag, paths)`
items. -/

structure RawItem where
  text : Str
  block_type : Str
  xpath : Str
  css_selector : Str
  html_id : Option Str
deriving Repr

structure ParseState where
  counter : Nat
  offset : Nat
  stack : List HeadingInfo
  blocks : List ContentBlock
  headings : List HeadingInfo

/-- `_create_block` (plus, for heading tags, the `HeadingInfo` bookkeeping
and stack update of `_process_heading`). -/
def createBlockStep (page_id : Str) (st : ParseState) (it : RawItem) : ParseState :=
  let parent := (st.stack.getLast?).map (·.block_id)
  let block := mkContentBlock st.counter ⟨page_id, st.counter⟩ it.block_type
    it.text it.xpath it.css_selector st.offset parent it.html_id
  let st1 := { st with counter := st.counter + 1,
                       offset := st.offset + it.text.length + 1,
                       blocks := st.blocks ++ [block] }
  if isHeadingType it.block_type then
    let level := headingLevel it.block_type
    let info : HeadingInfo := { level, text := it.text, block_id := block.id,
                                block_index := block.index, html_id := it.html_id }
    { st1 with headings := st1.headings ++ [info],
               stack := (st1.stack.filter (fun h => h.level < level)) ++ [info] }
  else st1

/-- `HTMLParser.parse`, abstracted over the emission sequence. -/
def parserEmit (page_id : Str) (items : List RawItem) :
    List ContentBlock × List HeadingInfo :=
  let st := items.foldl (createBlockStep page_id) ⟨0, 0, [], [], []⟩
  (st.blocks, st.headings)

/-! ### Specification-side definitions

These follow the wording of the specification / claims; the theorems below
relate them to the source-model definitions above. -/

/-- A text containing no whitespace at all, i.e. a single
whitespace-delimited word. -/
def NoSpace (s : Str) : Prop := ∀ c ∈ s, isSpaceChar c = false

instance (s : Str) : Decidable (NoSpace s) := by unfold NoSpace; infer_instance

/-- Spec §8: offsets are contiguous from a given starting offset
(`block[i+1].text_offset == block[i].text_offset + len(block[i].text) + 1`). -/
def ContiguousFrom : Nat → List ContentBlock → Prop
  | _, [] => True
  | off, b :: bs => b.text_offset = off ∧ ContiguousFrom (off + b.text.length + 1) bs

/-- The greedy accumulation of leading whole sentences whose cumulative
token count fits the budget (spec wording for `take_prefix`): returns the
accumulated sentences and the remaining ones. -/
def greedySplit (count : Str → Nat) (m : Nat) : List Str → Nat → List Str × List Str
  | [], _ => ([], [])
  | s :: rest, used =>
    if used + count s ≤ m then
      let r := greedySplit count m rest (used + count s)
      (s :: r.1, r.2)
    else ([], s :: rest)

/-- Claim C6's climbing step: `b` is the heading with the largest block
index among those of `vals` with strictly smaller level and strictly
earlier block index than `a`. -/
def IsClimbStep (vals : List HeadingInfo) (a b : HeadingInfo) : Prop :=
  b ∈ vals ∧ b.level < a.level ∧ b.block_index < a.block_index ∧
    ∀ h ∈ vals, h.level < a.level → h.block_index < a.block_index →
      h.block_index ≤ b.block_index

/-- No heading of `vals` is strictly more important and strictly earlier
than `a` (the climb stops at `a`). -/
def NoClimbStep (vals : List HeadingInfo) (a : HeadingInfo) : Prop :=
  ∀ h ∈ vals, ¬(h.level < a.level ∧ h.block_index < a.block_index)

/-- Consecutive-pair condition along a list. -/
def PairwiseNext (r : HeadingInfo → HeadingInfo → Prop) : List HeadingInfo → Prop
  | [] => True
  | [_] => True
  | a :: b :: rest => r a b ∧ PairwiseNext r (b :: rest)

/-- The running offset after laying out `bs` starting at `off`
(each block contributes `len(text) + 1`). -/
def endOffset (off : Nat) (bs : List ContentBlock) : Nat :=
  bs.foldl (fun o b => o + b.text.length + 1) off

/-- Claim C2 as stated: every piece produced by the normalizer for the
block at position `pos` fits that position's empty-chunk budget. -/
def SpecClaimC2 : Prop :=
  ∀ (cfg : BuildCfg) (blocks : List ContentBlock) (headings : List HeadingInfo)
    (page_title : Str) (pos : Nat) (b : ContentBlock),
    (pos, b) ∈ blocks.enum →
    ∀ p ∈ normPiecesAt simpleCount cfg blocks headings page_title pos b,
      simpleCount p.text ≤ normBudget simpleCount cfg blocks headings page_title pos

/-- Claim C4 as stated, first-sentence-exceeds cases: with `must_take=false`
the result is `("", text)` (the original text as remainder); with
`must_take=true` the prefix is non-empty. -/
def SpecClaimC4 : Prop :=
  ∀ (t : Str) (m : Nat),
    splitIntoSentences t ≠ [] →
    m < simpleCount ((splitIntoSentences t).headD []) →
    takeLead simpleCount t m false = ([], t) ∧
      (takeLead simpleCount t m true).1 ≠ []

/-- Claim C8's read-only condition: same length, and `index`, `id`, `text`,
`text_offset`, `parent_heading_id` unchanged position-wise. -/
def BlocksPreserved (a b : List ContentBlock) : Prop :=
  a.length = b.length ∧
    ∀ i, i < a.length →
      (a.getD i default).index = (b.getD i default).index ∧
      (a.getD i default).id = (b.getD i default).id ∧
      (a.getD i default).text = (b.getD i default).text ∧
      (a.getD i default).text_offset = (b.getD i default).text_offset ∧
      (a.getD i default).parent_heading_id = (b.getD i default).parent_heading_id

/-- Claim C8 as stated: `build_chunks` consumes the block list read-only. -/
def SpecClaimC8 : Prop :=
  ∀ (cfg : BuildCfg) (fuel : Nat) (blocks : List ContentBlock)
    (headings : List HeadingInfo) (page_id page_title space_key : Str)
    (page_version : Nat) (last_modified : Str),
    BlocksPreserved blocks
      (buildChunksFull simpleCount cfg fuel blocks headings page_id page_title
        space_key page_version last_modified).2

/-- Claim C7's index-wise contiguity condition (`block[0].text_offset == 0`
and `block[i+1].text_offset == block[i].text_offset + len(block[i].text) + 1`). -/
def OffsetsContiguous (bs : List ContentBlock) : Prop :=
  (bs ≠ [] → (bs.headD default).text_offset = 0) ∧
  ∀ i, i + 1 < bs.length →
    (bs.getD (i + 1) default).text_offset =
      (bs.getD i default).text_offset + (bs.getD i default).text.length + 1

/-! ### Concrete inputs used by counterexamples and witnesses -/

/-- `chunk_size=10, chunk_overlap=0`, no `[PAGE]`/`[SECTION]` tags. -/
def cfgA : BuildCfg := ⟨10, 0, 2, false, false⟩

/-- A paragraph block whose text is a single 12-token word (12 commas). -/
def blkA : ContentBlock :=
  mkContentBlock 0 ⟨"p1".toList, 0⟩ "p".toList ",,,,,,,,,,,,".toList [] [] 0 none none

/-- `chunk_size=6, chunk_overlap=0`, no tags. -/
def cfgB : BuildCfg := ⟨6, 0, 2, false, false⟩

def blkB0 : ContentBlock :=
  mkContentBlock 0 ⟨"p1".toList, 0⟩ "p".toList "aa bb.".toList [] [] 0 none none

def blkB1 : ContentBlock :=
  mkContentBlock 1 ⟨"p1".toList, 1⟩ "p".toList "cc dd. ee ff.".toList [] [] 7 none none

/-- `chunk_size=10, chunk_overlap=2`, no tags (exercises both overlap passes). -/
def cfgC : BuildCfg := ⟨10, 2, 2, false, false⟩

def blkD0 : ContentBlock :=
  mkContentBlock 0 ⟨"p1".toList, 0⟩ "p".toList "aa bb cc dd ee.".toList [] [] 0 none none

def blkD1 : ContentBlock :=
  mkContentBlock 1 ⟨"p1".toList, 1⟩ "p".toList "ff gg hh ii jj.".toList [] [] 16 none none

/-- An `h1` block whose text alone is 11 tokens (for the normalizer claim). -/
def blkC2 : ContentBlock :=
  mkContentBlock 0 ⟨"p1".toList, 0⟩ "h1".toList "a b c d e f g h i j k".toList [] [] 0 none none

/-- Heading data for the hierarchy witness: `h1`, then `h2` under it, then a
paragraph under the `h2`. -/
def blkH1 : ContentBlock :=
  mkContentBlock 0 ⟨"p1".toList, 0⟩ "h1".toList "Intro".toList [] [] 0 none
    (some "intro".toList)

def blkH2 : ContentBlock :=
  mkContentBlock 1 ⟨"p1".toList, 1⟩ "h2".toList "Sec".toList [] [] 6
    (some ⟨"p1".toList, 0⟩) (some "sec".toList)

def blkP : ContentBlock :=
  mkContentBlock 2 ⟨"p1".toList, 2⟩ "p".toList "text here.".toList [] [] 10
    (some ⟨"p1".toList, 1⟩) none

def idxW : HDict := buildHeadingIdxFromBlocks [blkH1, blkH2, blkP]

/-! ## Lemmas: token counting, join, strip -/

theorem isWordChar_space : isWordChar ' ' = false := by decide

theorem isSpaceChar_space : isSpaceChar ' ' = true := by decide

theorem not_word_of_space {c : Char} (h : isSpaceChar c = true) :
    isWordChar c = false := by
  simp only [isSpaceChar, Bool.or_eq_true, beq_iff_eq] at h
  rcases h with (((((h | h) | h) | h) | h) | h) <;> subst h <;> decide

theorem simpleCountAux_append_space (a b : Str) :
    ∀ st, simpleCountAux (a ++ ' ' :: b) st = simpleCountAux a st + simpleCount b := by
  induction a with
  | nil =>
    intro st
    simp [simpleCountAux, simpleCount, isWordChar_space, isSpaceChar_space]
  | cons c a ih =>
    intro st
    simp only [List.cons_append, simpleCountAux]
    by_cases hw : isWordChar c
    · simp [hw, ih]; omega
    · by_cases hs : isSpaceChar c
      · simp [hw, hs, ih]
      · simp [hw, hs, ih]; omega

theorem simpleCount_joinSpace (l : List Str) :
    simpleCount (joinSpace l) = (l.map simpleCount).sum := by
  induction l with
  | nil => simp [joinSpace, joinSep, simpleCount, simpleCountAux]
  | cons x xs ih =>
    cases xs with
    | nil => simp [joinSpace, joinSep]
    | cons y ys =>
      have hj : joinSpace (x :: y :: ys) = x ++ ' ' :: joinSpace (y :: ys) := by
        simp [joinSpace, joinSep]
      simp only [simpleCount] at ih ⊢
      rw [hj, simpleCountAux_append_space]
      simp only [simpleCount, List.map_cons, List.sum_cons] at ih ⊢
      omega

theorem simpleCountAux_all_space {sp : Str} (h : ∀ c ∈ sp, isSpaceChar c = true) :
    ∀ st, simpleCountAux sp st = 0 := by
  induction sp with
  | nil => intro st; rfl
  | cons c cs ih =>
    intro st
    have hc : isSpaceChar c = true := h c (by simp)
    simp [simpleCountAux, not_word_of_space hc, hc]
    exact ih (fun d hd => h d (by simp [hd])) false

theorem simpleCountAux_append_spaces {sp : Str} (h : ∀ c ∈ sp, isSpaceChar c = true)
    (t : Str) : ∀ st, simpleCountAux (t ++ sp) st = simpleCountAux t st := by
  induction t with
  | nil => intro st; simpa [simpleCountAux] using simpleCountAux_all_space h st
  | cons c cs ih =>
    intro st
    by_cases hw : isWordChar c
    · simp [simpleCountAux, hw, ih]
    · by_cases hs : isSpaceChar c
      · simp [simpleCountAux, hw, hs, ih]
      · simp [simpleCountAux, hw, hs, ih]

theorem simpleCount_lstrip (s : Str) : simpleCount (lstrip s) = simpleCount s := by
  induction s with
  | nil => rfl
  | cons c cs ih =>
    by_cases hs : isSpaceChar c
    · simpa [lstrip, List.dropWhile, hs, simpleCount, simpleCountAux,
        not_word_of_space hs] using ih
    · simp [lstrip, List.dropWhile, hs]

theorem rstrip_decomp (s : Str) :
    ∃ sp : Str, s = rstrip s ++ sp ∧ ∀ c ∈ sp, isSpaceChar c = true := by
  refine ⟨(s.reverse.takeWhile isSpaceChar).reverse, ?_, ?_⟩
  · rw [rstrip, ← List.reverse_append, List.takeWhile_append_dropWhile,
      List.reverse_reverse]
  · intro c hc
    rw [List.mem_reverse] at hc
    exact List.mem_takeWhile_imp hc

theorem simpleCount_rstrip (s : Str) : simpleCount (rstrip s) = simpleCount s := by
  obtain ⟨sp, hdec, hsp⟩ := rstrip_decomp s
  conv_rhs => rw [hdec]
  exact (simpleCountAux_append_spaces hsp (rstrip s) false).symm

theorem simpleCount_strip (s : Str) : simpleCount (strip s) = simpleCount s := by
  rw [strip, simpleCount_lstrip, simpleCount_rstrip]

theorem simpleCount_pos {s : Str} (h : ∃ c ∈ s, isSpaceChar c = false) :
    0 < simpleCount s := by
  induction s with
  | nil => simp at h
  | cons c cs ih =>
    by_cases hw : isWordChar c
    · simp [simpleCount, simpleCountAux, hw]
    · by_cases hs : isSpaceChar c
      · have : ∃ d ∈ cs, isSpaceChar d = false := by
          rcases h with ⟨d, hd, hds⟩
          rcases List.mem_cons.mp hd with rfl | hmem
          · exact absurd hs (by simp [hds])
          · exact ⟨d, hmem, hds⟩
        simpa [simpleCount, simpleCountAux, hw, hs] using ih this
      · simp [simpleCount, simpleCountAux, hw, hs]

theorem strip_sublist (s : Str) : List.Sublist (strip s) s := by
  have h1 : List.Sublist (lstrip (rstrip s)) (rstrip s) := List.dropWhile_sublist _
  have h2 : List.Sublist (rstrip s) s := by
    obtain ⟨sp, hdec, _⟩ := rstrip_decomp s
    conv_rhs => rw [hdec]
    exact List.sublist_append_left _ _
  exact h1.trans h2

theorem noSpace_strip {s : Str} (h : NoSpace s) : NoSpace (strip s) :=
  fun c hc => h c ((strip_sublist s).subset hc)

theorem strip_ne_of_exists {s : Str} (h : ∃ c ∈ s, isSpaceChar c = false) :
    strip s ≠ [] := by
  intro he
  have h1 := simpleCount_strip s
  rw [he] at h1
  have h2 : simpleCount ([] : Str) = 0 := rfl
  have hpos := simpleCount_pos h
  omega

/-! ## Lemmas: words and the word/sentence packers -/

theorem splitWordsAux_spec (t : Str) :
    ∀ acc, (∀ c ∈ acc, isSpaceChar c = false) →
      ∀ w ∈ splitWordsAux t acc, w ≠ [] ∧ NoSpace w := by
  induction t with
  | nil =>
    intro acc hacc w hw
    by_cases he : acc.isEmpty
    · simp [splitWordsAux, he] at hw
    · simp [splitWordsAux, he] at hw
      subst hw
      refine ⟨by simpa using (by simpa [List.isEmpty_iff] using he), ?_⟩
      intro c hc
      exact hacc c (List.mem_reverse.mp hc)
  | cons c cs ih =>
    intro acc hacc w hw
    by_cases hs : isSpaceChar c
    · by_cases he : acc.isEmpty
      · simp only [splitWordsAux, hs, if_pos he, if_true] at hw
        exact ih [] (by simp) w hw
      · simp only [splitWordsAux, hs, if_neg he, if_true] at hw
        rcases List.mem_cons.mp hw with rfl | hw2
        · refine ⟨by simpa using (by simpa [List.isEmpty_iff] using he), ?_⟩
          intro d hd
          exact hacc d (List.mem_reverse.mp hd)
        · exact ih [] (by simp) w hw2
    · simp only [splitWordsAux, hs, if_false] at hw
      refine ih (c :: acc) ?_ w hw
      intro d hd
      rcases List.mem_cons.mp hd with rfl | hd2
      · simpa using hs
      · exact hacc d hd2

theorem splitWords_spec (t : Str) : ∀ w ∈ splitWords t, w ≠ [] ∧ NoSpace w :=
  splitWordsAux_spec t [] (by simp)

theorem splitWordsAux_eq_nil (t : Str) :
    ∀ acc, splitWordsAux t acc = [] → acc = [] ∧ ∀ c ∈ t, isSpaceChar c = true := by
  induction t with
  | nil =>
    intro acc h
    by_cases he : acc.isEmpty
    · exact ⟨List.isEmpty_iff.mp he, by simp⟩
    · simp [splitWordsAux, he] at h
  | cons c cs ih =>
    intro acc h
    by_cases hs : isSpaceChar c
    · by_cases he : acc.isEmpty
      · simp only [splitWordsAux, hs, if_pos he, if_true] at h
        obtain ⟨_, h2⟩ := ih [] h
        refine ⟨List.isEmpty_iff.mp he, ?_⟩
        intro d hd
        rcases List.mem_cons.mp hd with rfl | hd2
        · exact hs
        · exact h2 d hd2
      · simp only [splitWordsAux, hs, if_neg he, if_true] at h
        exact (List.cons_ne_nil _ _ h).elim
    · simp only [splitWordsAux, hs, if_false] at h
      obtain ⟨h1, _⟩ := ih (c :: acc) h
      exact absurd h1 (by simp)

theorem splitWords_ne {t : Str} (h : ∃ c ∈ t, isSpaceChar c = false) :
    splitWords t ≠ [] := by
  intro he
  obtain ⟨_, hall⟩ := splitWordsAux_eq_nil t [] he
  obtain ⟨c, hc, hcs⟩ := h
  rw [hall c hc] at hcs
  cases hcs

theorem mem_joinSpace_of_mem {c : Char} {x : Str} {l : List Str}
    (hc : c ∈ x) (hx : x ∈ l) : c ∈ joinSpace l := by
  induction l with
  | nil => simp at hx
  | cons y ys ih =>
    cases ys with
    | nil =>
      simp at hx
      subst hx
      simpa [joinSpace, joinSep] using hc
    | cons z zs =>
      have hstep : joinSpace (y :: z :: zs) = y ++ ' ' :: joinSpace (z :: zs) := by
        simp [joinSpace, joinSep]
      rw [hstep]
      rcases List.mem_cons.mp hx with rfl | hx2
      · exact List.mem_append_left _ hc
      · exact List.mem_append_right _ (List.mem_cons_of_mem _ (ih hx2))

theorem joinSpace_singleton (w : Str) : joinSpace [w] = w := by
  simp [joinSpace, joinSep]

/-- A flushed buffer satisfies the part property provided its token sum fits
the budget or it holds a single word. -/
theorem flush_part_spec (m : Nat) (buf : List Str) (hne : buf ≠ [])
    (hb : (buf.map simpleCount).sum ≤ m ∨ ∃ w, buf = [w])
    (hw : ∀ w ∈ buf, w ≠ [] ∧ NoSpace w) :
    (simpleCount (joinSpace buf) ≤ m ∨ NoSpace (joinSpace buf)) ∧
      ∃ c ∈ joinSpace buf, isSpaceChar c = false := by
  constructor
  · rcases hb with hb | ⟨w, rfl⟩
    · left; rw [simpleCount_joinSpace]; exact hb
    · right
      rw [joinSpace_singleton]
      exact (hw w (by simp)).2
  · obtain ⟨w0, hw0⟩ := List.exists_mem_of_ne_nil buf hne
    obtain ⟨hw0ne, hw0ns⟩ := hw w0 hw0
    obtain ⟨c, hc⟩ := List.exists_mem_of_ne_nil w0 hw0ne
    exact ⟨c, mem_joinSpace_of_mem hc hw0, hw0ns c hc⟩

/-- The part property transported through `splitByWordsGo`. -/
theorem splitByWordsGo_spec (m : Nat) (ws : List Str) :
    ∀ buf bufTok parts,
      (∀ w ∈ ws, w ≠ [] ∧ NoSpace w) →
      bufTok = (buf.map simpleCount).sum →
      (buf = [] ∨ bufTok ≤ m ∨ ∃ w, buf = [w]) →
      (∀ w ∈ buf, w ≠ [] ∧ NoSpace w) →
      (∀ p ∈ parts, (simpleCount p ≤ m ∨ NoSpace p) ∧ ∃ c ∈ p, isSpaceChar c = false) →
      ∀ p ∈ splitByWordsGo simpleCount m ws buf bufTok parts,
        (simpleCount p ≤ m ∨ NoSpace p) ∧ ∃ c ∈ p, isSpaceChar c = false := by
  induction ws with
  | nil =>
    intro buf bufTok parts _ htok hinv hbufw hparts p hp
    by_cases he : buf.isEmpty
    · simp only [splitByWordsGo, he, if_true] at hp
      exact hparts p hp
    · simp only [splitByWordsGo, he, if_false] at hp
      rcases List.mem_append.mp hp with hp1 | hp2
      · exact hparts p hp1
      · simp only [List.mem_singleton] at hp2
        subst hp2
        have hne : buf ≠ [] := fun h => by simp [h] at he
        refine flush_part_spec m buf hne ?_ hbufw
        rcases hinv with rfl | hb | hb
        · exact absurd rfl hne
        · left; rw [← htok]; exact hb
        · right; exact hb
  | cons w ws ih =>
    intro buf bufTok parts hws htok hinv hbufw hparts p hp
    have hw := hws w (by simp)
    have hws' : ∀ x ∈ ws, x ≠ [] ∧ NoSpace x := fun x hx => hws x (by simp [hx])
    simp only [splitByWordsGo] at hp
    by_cases hcond : (decide (bufTok + simpleCount w > m) && !buf.isEmpty) = true
    · rw [if_pos hcond] at hp
      have hne : buf ≠ [] := by
        have h2 := ((Bool.and_eq_true _ _).mp hcond).2
        simp only [Bool.not_eq_true'] at h2
        exact List.isEmpty_eq_false.mp h2
      refine ih [w] (simpleCount w) _ hws' (by simp)
        (Or.inr (Or.inr ⟨w, rfl⟩))
        (by intro x hx; simp only [List.mem_singleton] at hx; subst hx; exact hw)
        ?_ p hp
      intro q hq
      rcases List.mem_append.mp hq with hq1 | hq2
      · exact hparts q hq1
      · simp only [List.mem_singleton] at hq2
        subst hq2
        refine flush_part_spec m buf hne ?_ hbufw
        rcases hinv with rfl | hb | hb
        · exact absurd rfl hne
        · left; rw [← htok]; exact hb
        · right; exact hb
    · rw [if_neg hcond] at hp
      refine ih (buf ++ [w]) (bufTok + simpleCount w) parts hws' ?_ ?_ ?_ hparts p hp
      · rw [htok]; simp
      · by_cases hb : buf = []
        · subst hb; exact Or.inr (Or.inr ⟨w, rfl⟩)
        · have hd : ¬ bufTok + simpleCount w > m := by
            intro hgt
            apply hcond
            simp only [Bool.and_eq_true, decide_eq_true_eq, Bool.not_eq_true']
            exact ⟨hgt, List.isEmpty_eq_false.mpr hb⟩
          exact Or.inr (Or.inl (by omega))
      · intro x hx
        rcases List.mem_append.mp hx with hx1 | hx2
        · exact hbufw x hx1
        · simp only [List.mem_singleton] at hx2; subst hx2; exact hw

theorem headD_mem {α : Type} {l : List α} (d : α) (h : l ≠ []) : l.headD d ∈ l := by
  cases l with
  | nil => exact absurd rfl h
  | cons x xs => simp

theorem lstrip_head_not_space (y : Str) (h : lstrip y ≠ []) :
    isSpaceChar ((lstrip y).headD ' ') = false := by
  induction y with
  | nil => exact absurd rfl h
  | cons c cs ih =>
    by_cases hs : isSpaceChar c
    · rw [lstrip, List.dropWhile_cons_of_pos hs] at h ⊢
      exact ih h
    · rw [lstrip, List.dropWhile_cons_of_neg hs] at h ⊢
      simpa using hs

theorem strip_head_nonspace {y : Str} (h : strip y ≠ []) :
    ∃ c ∈ strip y, isSpaceChar c = false := by
  refine ⟨(strip y).headD ' ', headD_mem _ h, ?_⟩
  rw [strip] at h ⊢
  exact lstrip_head_not_space _ h

/-- `_split_by_words`: every part fits the budget or is one
whitespace-free word; every part contains a non-space character. -/
theorem splitByWords_spec (t : Str) (m : Nat) :
    ∀ p ∈ splitByWords simpleCount t m,
      (simpleCount p ≤ m ∨ NoSpace p) ∧ ∃ c ∈ p, isSpaceChar c = false :=
  splitByWordsGo_spec m (splitWords t) [] 0 [] (splitWords_spec t) rfl
    (Or.inl rfl) (by simp) (by simp)

theorem splitByWordsGo_ne (m : Nat) (ws : List Str) :
    ∀ buf bufTok parts, (ws ≠ [] ∨ buf ≠ []) →
      splitByWordsGo simpleCount m ws buf bufTok parts ≠ [] := by
  induction ws with
  | nil =>
    intro buf bufTok parts h
    have hb : buf ≠ [] := h.resolve_left (fun h2 => h2 rfl)
    simp only [splitByWordsGo]
    rw [if_neg (by simp [List.isEmpty_eq_false.mpr hb])]
    simp
  | cons w ws ih =>
    intro buf bufTok parts _
    simp only [splitByWordsGo]
    split
    · exact ih [w] _ _ (Or.inr (by simp))
    · exact ih (buf ++ [w]) _ _ (Or.inr (by simp))

theorem splitByWords_ne {t : Str} (m : Nat) (h : ∃ c ∈ t, isSpaceChar c = false) :
    splitByWords simpleCount t m ≠ [] :=
  splitByWordsGo_ne m (splitWords t) [] 0 [] (Or.inl (splitWords_ne h))

/-- `split_text` loop: part property. -/
theorem splitTextGo_spec (m : Nat) (ss : List Str) :
    ∀ buf bufTok parts,
      (∀ s ∈ ss, ∃ c ∈ s, isSpaceChar c = false) →
      bufTok = (buf.map simpleCount).sum →
      bufTok ≤ m →
      (∀ s ∈ buf, ∃ c ∈ s, isSpaceChar c = false) →
      (∀ p ∈ parts, (simpleCount p ≤ m ∨ NoSpace p) ∧ ∃ c ∈ p, isSpaceChar c = false) →
      ∀ p ∈ splitTextGo simpleCount m ss buf bufTok parts,
        (simpleCount p ≤ m ∨ NoSpace p) ∧ ∃ c ∈ p, isSpaceChar c = false := by
  have flushQ : ∀ (buf : List Str) (bufTok : Nat),
      bufTok = (buf.map simpleCount).sum → bufTok ≤ m → buf ≠ [] →
      (∀ s ∈ buf, ∃ c ∈ s, isSpaceChar c = false) →
      (simpleCount (joinSpace buf) ≤ m ∨ NoSpace (joinSpace buf)) ∧
        ∃ c ∈ joinSpace buf, isSpaceChar c = false := by
    intro buf bufTok htok hle hne hbuf
    constructor
    · left; rw [simpleCount_joinSpace, ← htok]; exact hle
    · obtain ⟨s0, hs0⟩ := List.exists_mem_of_ne_nil buf hne
      obtain ⟨c, hc, hcs⟩ := hbuf s0 hs0
      exact ⟨c, mem_joinSpace_of_mem hc hs0, hcs⟩
  induction ss with
  | nil =>
    intro buf bufTok parts _ htok hle hbuf hparts p hp
    by_cases he : buf.isEmpty
    · simp only [splitTextGo, he, if_true] at hp
      exact hparts p hp
    · simp only [splitTextGo, he, if_false] at hp
      rcases List.mem_append.mp hp with hp1 | hp2
      · exact hparts p hp1
      · simp only [List.mem_singleton] at hp2
        subst hp2
        exact flushQ buf bufTok htok hle (List.isEmpty_eq_false.mp (by simpa using he)) hbuf
  | cons s ss ih =>
    intro buf bufTok parts hss htok hle hbuf hparts p hp
    have hs := hss s (by simp)
    have hss' : ∀ x ∈ ss, ∃ c ∈ x, isSpaceChar c = false := fun x hx => hss x (by simp [hx])
    simp only [splitTextGo] at hp
    by_cases h1 : simpleCount s > m
    · rw [if_pos h1] at hp
      refine ih [] 0 _ hss' rfl (Nat.zero_le m) (by simp) ?_ p hp
      intro q hq
      rcases List.mem_append.mp hq with hq1 | hq2
      · by_cases he : buf.isEmpty
        · rw [if_pos he] at hq1
          exact hparts q hq1
        · rw [if_neg he] at hq1
          rcases List.mem_append.mp hq1 with hq3 | hq4
          · exact hparts q hq3
          · simp only [List.mem_singleton] at hq4
            subst hq4
            exact flushQ buf bufTok htok hle (List.isEmpty_eq_false.mp (by simpa using he)) hbuf
      · exact splitByWords_spec s m q hq2
    · rw [if_neg h1] at hp
      have hsle : simpleCount s ≤ m := by omega
      by_cases h2 : bufTok + simpleCount s > m
      · rw [if_pos h2] at hp
        have hgt : bufTok + simpleCount s > m := h2
        have hbne : buf ≠ [] := by
          intro hb
          subst hb
          simp at htok
          omega
        refine ih [s] (simpleCount s) _ hss' (by simp) hsle
          (by intro x hx; simp only [List.mem_singleton] at hx; subst hx; exact hs) ?_ p hp
        intro q hq
        rcases List.mem_append.mp hq with hq1 | hq2
        · exact hparts q hq1
        · simp only [List.mem_singleton] at hq2
          subst hq2
          exact flushQ buf bufTok htok hle hbne hbuf
      · rw [if_neg h2] at hp
        have hgt : ¬ bufTok + simpleCount s > m := h2
        refine ih (buf ++ [s]) (bufTok + simpleCount s) parts hss' (by rw [htok]; simp)
          (by omega) ?_ hparts p hp
        intro x hx
        rcases List.mem_append.mp hx with hx1 | hx2
        · exact hbuf x hx1
        · simp only [List.mem_singleton] at hx2; subst hx2; exact hs

/-! ## Lemmas: the regex sentence splitter -/

theorem ender_not_space {c : Char} (h : isSentEnder c = true) :
    isSpaceChar c = false := by
  simp only [isSentEnder, Bool.or_eq_true, beq_iff_eq] at h
  rcases h with ((h | h) | h) | h <;> subst h <;> decide

theorem countWhile_head_true {p : Char → Bool} {c : Char} {cs : Str}
    (h : p c = true) : countWhile p (c :: cs) = countWhile p cs + 1 := by
  simp [countWhile, h]

theorem matchSentEnd_spec {s : Str} {n t : Nat} (h : matchSentEnd s = some (n, t)) :
    (∃ c cs, s = c :: cs ∧ isSentEnder c = true) ∧ 1 ≤ n ∧ n ≤ t := by
  match s with
  | [] => simp [matchSentEnd] at h
  | c :: cs =>
    by_cases he : isSentEnder c
    · refine ⟨⟨c, cs, rfl, he⟩, ?_⟩
      have hcw : 1 ≤ countWhile isSentEnder (c :: cs) := by
        rw [countWhile_head_true he]; omega
      simp only [matchSentEnd, he, if_true] at h
      set e := countWhile isSentEnder (c :: cs) with hedef
      set rest1 := (c :: cs).drop e
      set cl := countWhile isCloser rest1
      set rest2 := rest1.drop cl with hr2
      match hrm : rest2 with
      | [] =>
        simp at h
        omega
      | d :: ds =>
        by_cases hd : isSpaceChar d
        · simp [hd] at h
          omega
        · simp [hd] at h
    · simp [matchSentEnd, he] at h

theorem findSentMatch_spec {s : Str} {p n t : Nat}
    (h : findSentMatch s = some (p, n, t)) :
    (∃ c cs, s.drop p = c :: cs ∧ isSentEnder c = true) ∧ 1 ≤ n ∧ n ≤ t := by
  induction s generalizing p n t with
  | nil => simp [findSentMatch] at h
  | cons c cs ih =>
    simp only [findSentMatch] at h
    match hm : matchSentEnd (c :: cs) with
    | some (n0, t0) =>
      rw [hm] at h
      simp at h
      obtain ⟨rfl, rfl, rfl⟩ := h
      have := matchSentEnd_spec hm
      simpa using this
    | none =>
      rw [hm] at h
      match hf : findSentMatch cs with
      | some (p1, n1, t1) =>
        rw [hf] at h
        simp at h
        obtain ⟨rfl, rfl, rfl⟩ := h
        have := ih hf
        simpa using this
      | none => rw [hf] at h; simp at h

theorem splitSentencesGo_acc_mem {fuel : Nat} :
    ∀ {s : Str} {acc : List Str} {x : Str}, x ∈ acc →
      x ∈ splitSentencesGo fuel s acc := by
  induction fuel with
  | zero => intro s acc x hx; simpa [splitSentencesGo] using hx
  | succ fuel ih =>
    intro s acc x hx
    simp only [splitSentencesGo]
    match hm : findSentMatch s with
    | none =>
      by_cases ht : (strip s).isEmpty
      · simpa [ht] using hx
      · simp [ht, hx]
    | some (p, nws, tot) =>
      by_cases hse : (strip (s.take (p + nws))).isEmpty
      · simpa [hse] using ih hx
      · exact ih (by simp [hse, hx])

theorem splitSentencesGo_prop {fuel : Nat} :
    ∀ {s : Str} {acc : List Str},
      (∀ a ∈ acc, ∃ c ∈ a, isSpaceChar c = false) →
      ∀ x ∈ splitSentencesGo fuel s acc, ∃ c ∈ x, isSpaceChar c = false := by
  induction fuel with
  | zero =>
    intro s acc hacc x hx
    simp only [splitSentencesGo, List.mem_reverse] at hx
    exact hacc x hx
  | succ fuel ih =>
    intro s acc hacc x hx
    simp only [splitSentencesGo] at hx
    match hm : findSentMatch s with
    | none =>
      rw [hm] at hx
      by_cases ht : (strip s).isEmpty
      · rw [if_pos ht] at hx
        exact hacc x (List.mem_reverse.mp hx)
      · rw [if_neg ht] at hx
        rw [List.mem_reverse] at hx
        rcases List.mem_cons.mp hx with rfl | hx2
        · exact strip_head_nonspace (List.isEmpty_eq_false.mp (by simpa using ht))
        · exact hacc x hx2
    | some (p, nws, tot) =>
      rw [hm] at hx
      refine ih ?_ x hx
      intro a ha
      by_cases hse : (strip (s.take (p + nws))).isEmpty
      · rw [if_pos hse] at ha
        exact hacc a ha
      · rw [if_neg hse] at ha
        rcases List.mem_cons.mp ha with rfl | ha2
        · exact strip_head_nonspace (List.isEmpty_eq_false.mp (by simpa using hse))
        · exact hacc a ha2

/-- Every sentence returned by the regex splitter contains a non-space
character (in particular it is non-empty and survives `strip`). -/
theorem splitIntoSentences_prop (t : Str) :
    ∀ x ∈ splitIntoSentences t, ∃ c ∈ x, isSpaceChar c = false := by
  intro x hx
  unfold splitIntoSentences at hx
  by_cases he : (strip t).isEmpty
  · simp [he] at hx
  · rw [if_neg he] at hx
    exact splitSentencesGo_prop (by simp) x hx

theorem splitIntoSentences_ne {t : Str} (h : strip t ≠ []) :
    splitIntoSentences t ≠ [] := by
  unfold splitIntoSentences
  rw [if_neg (by simpa using h)]
  have hex : ∃ c ∈ strip t, isSpaceChar c = false := strip_head_nonspace h
  cases hm : findSentMatch (strip t) with
  | none =>
    have ht : strip (strip t) ≠ [] := strip_ne_of_exists hex
    simp only [splitSentencesGo, hm]
    rw [if_neg (by simpa using ht)]
    simp
  | some r =>
    obtain ⟨p, nws, tot⟩ := r
    obtain ⟨⟨c, cs, hdrop, hend⟩, hn, _⟩ := findSentMatch_spec hm
    have hcmem : c ∈ (strip t).take (p + nws) := by
      rw [List.take_add]
      refine List.mem_append_right _ ?_
      rw [hdrop]
      cases nws with
      | zero => omega
      | succ k => simp
    have hsent : strip ((strip t).take (p + nws)) ≠ [] :=
      strip_ne_of_exists ⟨c, hcmem, ender_not_space hend⟩
    simp only [splitSentencesGo, hm]
    rw [if_neg (by simpa using hsent)]
    intro hcon
    have hmem := @splitSentencesGo_acc_mem ((strip t).length)
      ((strip t).drop (p + tot)) [strip ((strip t).take (p + nws))]
      (strip ((strip t).take (p + nws))) (by simp)
    rw [hcon] at hmem
    simp at hmem

/-- `split_text`: every part fits the budget or is a single
whitespace-free word. -/
theorem splitText_spec (t : Str) (m : Nat) :
    ∀ p ∈ splitText simpleCount t m,
      (simpleCount p ≤ m ∨ NoSpace p) ∧ ∃ c ∈ p, isSpaceChar c = false :=
  splitTextGo_spec m (splitIntoSentences t) [] 0 []
    (splitIntoSentences_prop t) rfl (Nat.zero_le m) (by simp) (by simp)

theorem splitTextGo_ne (m : Nat) (ss : List Str) :
    ∀ buf bufTok parts,
      (∀ s ∈ ss, ∃ c ∈ s, isSpaceChar c = false) →
      (buf ≠ [] ∨ parts ≠ [] ∨ ss ≠ []) →
      splitTextGo simpleCount m ss buf bufTok parts ≠ [] := by
  induction ss with
  | nil =>
    intro buf bufTok parts _ hd
    simp only [splitTextGo]
    by_cases he : buf.isEmpty
    · rw [if_pos he]
      rcases hd with h | h | h
      · exact absurd (List.isEmpty_iff.mp he) h
      · exact h
      · exact absurd rfl h
    · rw [if_neg he]; simp
  | cons s ss ih =>
    intro buf bufTok parts hss _
    have hs := hss s (by simp)
    have hss' : ∀ x ∈ ss, ∃ c ∈ x, isSpaceChar c = false := fun x hx => hss x (by simp [hx])
    simp only [splitTextGo]
    split
    · refine ih [] 0 _ hss' (Or.inr (Or.inl ?_))
      intro hcon
      have := splitByWords_ne m hs
      rcases List.append_eq_nil.mp hcon with ⟨_, h2⟩
      exact this h2
    · split
      · exact ih [s] _ _ hss' (Or.inl (by simp))
      · exact ih (buf ++ [s]) _ _ hss' (Or.inl (by simp))

theorem splitText_ne {t : Str} (m : Nat) (h : strip t ≠ []) :
    splitText simpleCount t m ≠ [] :=
  splitTextGo_ne m (splitIntoSentences t) [] 0 [] (splitIntoSentences_prop t)
    (Or.inr (Or.inr (splitIntoSentences_ne h)))

/-! ## Lemmas: `take_prefix` -/

theorem splitIntoSentences_nil : splitIntoSentences ([] : Str) = [] := by
  simp [splitIntoSentences, strip, lstrip, rstrip]

theorem takeLeadGo_false_eq (m : Nat) (t : Str) (ss : List Str) :
    ∀ taken used,
      takeLeadGo simpleCount m false t ss taken used =
        .broke (taken ++ (greedySplit simpleCount m ss used).1)
          (greedySplit simpleCount m ss used).2 := by
  induction ss with
  | nil => intro taken used; simp [takeLeadGo, greedySplit]
  | cons s rest ih =>
    intro taken used
    simp only [takeLeadGo, greedySplit]
    by_cases h1 : simpleCount s > m
    · rw [if_pos h1]
      rw [if_neg (by omega : ¬ used + simpleCount s ≤ m)]
      simp
    · rw [if_neg h1]
      by_cases h2 : used + simpleCount s ≤ m
      · rw [if_pos h2, if_pos h2, ih]
        simp
      · rw [if_neg h2, if_neg h2]
        simp

/-- `take_prefix` with `must_take=False` is exactly greedy whole-sentence
accumulation, with prefix and remainder rendered by the
strip-join-strip normalization of the source. -/
theorem takeLead_false_eq (t : Str) (m : Nat) (h : splitIntoSentences t ≠ []) :
    takeLead simpleCount t m false =
      (strip (joinStripped (greedySplit simpleCount m (splitIntoSentences t) 0).1),
       strip (joinStripped (greedySplit simpleCount m (splitIntoSentences t) 0).2)) := by
  have ht : ¬ t.isEmpty = true := by
    intro he
    rw [List.isEmpty_iff.mp he] at h
    exact h splitIntoSentences_nil
  unfold takeLead
  rw [if_neg ht, if_neg (by simpa using h), takeLeadGo_false_eq]
  simp only [List.nil_append]
  rw [if_neg (by simp)]

theorem takeLead_true_first_exceeds (t : Str) (m : Nat)
    (h1 : splitIntoSentences t ≠ [])
    (h2 : m < simpleCount ((splitIntoSentences t).headD [])) :
    (takeLead simpleCount t m true).1 =
      strip ((splitByWords simpleCount ((splitIntoSentences t).headD []) m).headD []) ∧
    (takeLead simpleCount t m true).1 ≠ [] := by
  have ht : ¬ t.isEmpty = true := by
    intro he
    rw [List.isEmpty_iff.mp he] at h1
    exact h1 splitIntoSentences_nil
  obtain ⟨s0, rest, hss⟩ : ∃ s0 rest, splitIntoSentences t = s0 :: rest := by
    cases hs : splitIntoSentences t with
    | nil => exact absurd hs h1
    | cons a b => exact ⟨a, b, rfl⟩
  have hs0 : ∃ c ∈ s0, isSpaceChar c = false :=
    splitIntoSentences_prop t s0 (by simp [hss])
  have hwne : splitByWords simpleCount s0 m ≠ [] := splitByWords_ne m hs0
  obtain ⟨w0, wrest, hw⟩ : ∃ w0 wrest, splitByWords simpleCount s0 m = w0 :: wrest := by
    cases hwx : splitByWords simpleCount s0 m with
    | nil => exact absurd hwx hwne
    | cons a b => exact ⟨a, b, rfl⟩
  have hst : simpleCount s0 > m := by
    rw [hss] at h2
    simpa using h2
  have hw0 : strip w0 ≠ [] := by
    have hmem : w0 ∈ splitByWords simpleCount s0 m := by rw [hw]; simp
    obtain ⟨_, hex⟩ := splitByWords_spec s0 m w0 hmem
    exact strip_ne_of_exists hex
  unfold takeLead
  rw [if_neg ht, if_neg (by simp [hss] : ¬ (splitIntoSentences t).isEmpty = true)]
  rw [hss]
  simp only [takeLeadGo]
  rw [if_pos hst]
  rw [if_neg (by simp)]
  rw [hw]
  constructor
  · simp [hss, hw]
  · simpa using hw0

/-! ## Lemmas: heading hierarchy climbing -/

/-- Candidate predicate of the climb: strictly more important and strictly
earlier than `cur`. -/
def ClimbCand (cur h : HeadingInfo) : Prop :=
  h.level < cur.level ∧ h.block_index < cur.block_index

instance (cur h : HeadingInfo) : Decidable (ClimbCand cur h) := by
  unfold ClimbCand; infer_instance

theorem climbCand_bool (cur h : HeadingInfo) :
    (h.level < cur.level && h.block_index < cur.block_index) = true ↔
      ClimbCand cur h := by
  simp [ClimbCand]

theorem pickStep_cases (cur : HeadingInfo) (acc : Option HeadingInfo)
    (h : HeadingInfo) :
    (∀ b, pickStep cur acc h = some b →
      ((b = h ∧ ClimbCand cur h) ∨ acc = some b)) ∧
    (ClimbCand cur h → ∃ a', pickStep cur acc h = some a' ∧
      h.block_index ≤ a'.block_index) ∧
    (∀ a, acc = some a → ∃ a', pickStep cur acc h = some a' ∧
      a.block_index ≤ a'.block_index) ∧
    (pickStep cur acc h = none → acc = none ∧ ¬ ClimbCand cur h) := by
  cases acc with
  | none =>
    by_cases hc : ClimbCand cur h
    · have hb := (climbCand_bool cur h).mpr hc
      simp only [pickStep, hb, if_true]
      refine ⟨?_, ?_, ?_, ?_⟩
      · intro b hbeq
        simp only [Option.some.injEq] at hbeq
        exact Or.inl ⟨hbeq.symm, hc⟩
      · exact fun _ => ⟨h, rfl, le_refl _⟩
      · intro a ha; cases ha
      · intro hn; cases hn
    · have hb : (h.level < cur.level && h.block_index < cur.block_index) = false := by
        rw [← Bool.not_eq_true]
        intro hx
        exact hc ((climbCand_bool cur h).mp hx)
      simp only [pickStep, hb, Bool.false_eq_true, if_false]
      refine ⟨?_, ?_, ?_, ?_⟩
      · intro b hbeq; cases hbeq
      · intro hcc; exact absurd hcc hc
      · intro a ha; cases ha
      · intro _; exact ⟨by trivial, hc⟩
  | some a0 =>
    by_cases hc : ClimbCand cur h
    · have hb := (climbCand_bool cur h).mpr hc
      by_cases hgt : h.block_index > a0.block_index
      · simp only [pickStep, hb, if_true, if_pos hgt]
        refine ⟨?_, ?_, ?_, ?_⟩
        · intro b hbeq
          simp only [Option.some.injEq] at hbeq
          exact Or.inl ⟨hbeq.symm, hc⟩
        · exact fun _ => ⟨h, rfl, le_refl _⟩
        · intro a ha
          simp only [Option.some.injEq] at ha
          subst ha
          exact ⟨h, rfl, by omega⟩
        · intro hn; cases hn
      · simp only [pickStep, hb, if_true, if_neg hgt]
        refine ⟨?_, ?_, ?_, ?_⟩
        · intro b hbeq
          exact Or.inr hbeq
        · intro _; exact ⟨a0, rfl, by omega⟩
        · intro a ha
          simp only [Option.some.injEq] at ha
          subst ha
          exact ⟨a0, rfl, le_refl _⟩
        · intro hn; cases hn
    · have hb : (h.level < cur.level && h.block_index < cur.block_index) = false := by
        rw [← Bool.not_eq_true]
        intro hx
        exact hc ((climbCand_bool cur h).mp hx)
      simp only [pickStep, hb, Bool.false_eq_true, if_false]
      refine ⟨?_, ?_, ?_, ?_⟩
      · intro b hbeq; exact Or.inr hbeq
      · intro hcc; exact absurd hcc hc
      · intro a ha
        simp only [Option.some.injEq] at ha
        subst ha
        exact ⟨a0, rfl, le_refl _⟩
      · intro hn; cases hn

theorem pickStep_fold_spec (cur : HeadingInfo) (vals : List HeadingInfo) :
    ∀ acc : Option HeadingInfo,
      (∀ b, acc = some b → ClimbCand cur b) →
      (∀ b, vals.foldl (pickStep cur) acc = some b →
        ClimbCand cur b ∧ (b ∈ vals ∨ acc = some b) ∧
        (∀ h ∈ vals, ClimbCand cur h → h.block_index ≤ b.block_index) ∧
        (∀ a, acc = some a → a.block_index ≤ b.block_index)) ∧
      (vals.foldl (pickStep cur) acc = none → acc = none ∧
        ∀ h ∈ vals, ¬ ClimbCand cur h) := by
  induction vals with
  | nil =>
    intro acc hacc
    constructor
    · intro b hb
      simp only [List.foldl_nil] at hb
      refine ⟨hacc b hb, Or.inr hb, by simp, ?_⟩
      intro a ha
      rw [ha] at hb
      simp only [Option.some.injEq] at hb
      subst hb
      exact le_refl _
    · intro hb
      simp only [List.foldl_nil] at hb
      exact ⟨hb, by simp⟩
  | cons h tl ih =>
    intro acc hacc
    obtain ⟨hF2, hF3, hF4, hF5⟩ := pickStep_cases cur acc h
    have hstep : ∀ b, pickStep cur acc h = some b → ClimbCand cur b := by
      intro b hb
      rcases hF2 b hb with ⟨rfl, hc⟩ | hc
      · exact hc
      · exact hacc b hc
    obtain ⟨ihs, ihn⟩ := ih (pickStep cur acc h) hstep
    constructor
    · intro b hb
      simp only [List.foldl_cons] at hb
      obtain ⟨hcand, hmem, hmax, haccb⟩ := ihs b hb
      refine ⟨hcand, ?_, ?_, ?_⟩
      · rcases hmem with hm | hm
        · exact Or.inl (by simp [hm])
        · rcases hF2 b hm with ⟨rfl, _⟩ | hc
          · exact Or.inl (by simp)
          · exact Or.inr hc
      · intro x hx hcx
        rcases List.mem_cons.mp hx with rfl | hx2
        · obtain ⟨a', ha', hle⟩ := hF3 hcx
          exact le_trans hle (haccb a' ha')
        · exact hmax x hx2 hcx
      · intro a ha
        obtain ⟨a', ha', hle⟩ := hF4 a ha
        exact le_trans hle (haccb a' ha')
    · intro hb
      simp only [List.foldl_cons] at hb
      obtain ⟨hn, htl⟩ := ihn hb
      obtain ⟨hacc0, hnc⟩ := hF5 hn
      refine ⟨hacc0, ?_⟩
      intro x hx
      rcases List.mem_cons.mp hx with rfl | hx2
      · exact hnc
      · exact htl x hx2

theorem pickBest_some {vals : List HeadingInfo} {cur b : HeadingInfo}
    (h : pickBest vals cur = some b) :
    ClimbCand cur b ∧ b ∈ vals ∧
      ∀ x ∈ vals, ClimbCand cur x → x.block_index ≤ b.block_index := by
  obtain ⟨hs, _⟩ := pickStep_fold_spec cur vals none (by simp)
  obtain ⟨h1, h2, h3, _⟩ := hs b h
  exact ⟨h1, h2.resolve_right (by simp), h3⟩

theorem pickBest_none {vals : List HeadingInfo} {cur : HeadingInfo}
    (h : pickBest vals cur = none) : NoClimbStep vals cur := by
  obtain ⟨_, hn⟩ := pickStep_fold_spec cur vals none (by simp)
  intro x hx
  exact fun hc => (hn h).2 x hx ⟨hc.1, hc.2⟩

theorem getLastD_irrel {α : Type} {l : List α} (h : l ≠ []) (d1 d2 : α) :
    l.getLastD d1 = l.getLastD d2 := by
  cases l with
  | nil => exact absurd rfl h
  | cons x xs => rfl

theorem climbChainGo_spec (idx : HDict) :
    ∀ (fuel : Nat) (cur : HeadingInfo), cur.block_index < fuel →
      climbChainGo idx fuel cur ≠ [] ∧
      (climbChainGo idx fuel cur).headD default = cur ∧
      PairwiseNext (IsClimbStep (hdictValues idx)) (climbChainGo idx fuel cur) ∧
      NoClimbStep (hdictValues idx) ((climbChainGo idx fuel cur).getLastD default) ∧
      PairwiseNext (fun a b => b.level < a.level) (climbChainGo idx fuel cur) := by
  intro fuel
  induction fuel with
  | zero => intro cur h; omega
  | succ f ih =>
    intro cur hlt
    simp only [climbChainGo]
    split
    next hp =>
      refine ⟨by simp, by simp, trivial, ?_, trivial⟩
      have : ([cur] : List HeadingInfo).getLastD default = cur := rfl
      rw [this]
      exact pickBest_none hp
    next b hp =>
      obtain ⟨hcand, hmem, hmax⟩ := pickBest_some hp
      have hbf : b.block_index < f := by
        have := hcand.2
        omega
      obtain ⟨hne, hhd, hpw, hlast, hlv⟩ := ih b hbf
      obtain ⟨b', tail', htl⟩ : ∃ b' tail', climbChainGo idx f b = b' :: tail' := by
        cases hc : climbChainGo idx f b with
        | nil => exact absurd hc hne
        | cons x xs => exact ⟨x, xs, rfl⟩
      have hb' : b' = b := by
        have h0 := hhd
        rw [htl] at h0
        simpa using h0
      subst hb'
      rw [htl] at hpw hlast hlv ⊢
      refine ⟨by simp, by simp, ?_, ?_, ?_⟩
      · exact ⟨⟨hmem, hcand.1, hcand.2, fun x hx h1 h2 => hmax x hx ⟨h1, h2⟩⟩, hpw⟩
      · have h1 : (cur :: b' :: tail').getLastD default = (b' :: tail').getLastD default := rfl
        rw [h1]
        exact hlast
      · exact ⟨hcand.1, hlv⟩

/-! ## Lemmas: offset contiguity (claim C7) -/

theorem recomputeGo_contig (bs : List ContentBlock) :
    ∀ off, ContiguousFrom off (recomputeGo bs off) := by
  induction bs with
  | nil => intro off; trivial
  | cons b bs ih => intro off; exact ⟨rfl, ih _⟩

theorem contig_map_preserve {f : ContentBlock → ContentBlock}
    (hf : ∀ b, (f b).text_offset = b.text_offset ∧ (f b).text = b.text) :
    ∀ (bs : List ContentBlock) (off : Nat),
      ContiguousFrom off bs → ContiguousFrom off (bs.map f) := by
  intro bs
  induction bs with
  | nil => intro off _; trivial
  | cons b bs ih =>
    intro off h
    obtain ⟨h1, h2⟩ := h
    refine ⟨by rw [(hf b).1, h1], ?_⟩
    rw [(hf b).2]
    exact ih _ h2

theorem normReindexGo_contig (page_id : Str) (ps : List Piece) :
    ∀ n off, ContiguousFrom off (normReindexGo page_id ps n off).1 := by
  induction ps with
  | nil => intro n off; trivial
  | cons p ps ih => intro n off; exact ⟨rfl, ih _ _⟩

theorem endOffset_append (off : Nat) (bs : List ContentBlock) (b : ContentBlock) :
    endOffset off (bs ++ [b]) = endOffset off bs + b.text.length + 1 := by
  simp [endOffset, List.foldl_append]

theorem contig_append_one (b : ContentBlock) :
    ∀ (bs : List ContentBlock) (off : Nat), ContiguousFrom off bs →
      b.text_offset = endOffset off bs → ContiguousFrom off (bs ++ [b]) := by
  intro bs
  induction bs with
  | nil =>
    intro off _ hb
    exact ⟨by simpa [endOffset] using hb, trivial⟩
  | cons c cs ih =>
    intro off h hb
    obtain ⟨h1, h2⟩ := h
    exact ⟨h1, ih _ h2 (by simpa [endOffset] using hb)⟩

theorem parserEmit_fold_inv (page_id : Str) (items : List RawItem) :
    ∀ st : ParseState, ContiguousFrom 0 st.blocks → st.offset = endOffset 0 st.blocks →
      ContiguousFrom 0 (items.foldl (createBlockStep page_id) st).blocks ∧
      (items.foldl (createBlockStep page_id) st).offset =
        endOffset 0 (items.foldl (createBlockStep page_id) st).blocks := by
  induction items with
  | nil => intro st h1 h2; exact ⟨h1, h2⟩
  | cons it items ih =>
    intro st h1 h2
    simp only [List.foldl_cons]
    apply ih
    · unfold createBlockStep
      by_cases hh : isHeadingType it.block_type = true
      · rw [if_pos hh]
        exact contig_append_one _ _ _ h1 (by simpa [mkContentBlock] using h2)
      · rw [if_neg hh]
        exact contig_append_one _ _ _ h1 (by simpa [mkContentBlock] using h2)
    · unfold createBlockStep
      by_cases hh : isHeadingType it.block_type = true
      · rw [if_pos hh]
        rw [endOffset_append]
        simp [mkContentBlock, h2]
      · rw [if_neg hh]
        rw [endOffset_append]
        simp [mkContentBlock, h2]

theorem getD_zero_eq_headD {α : Type} (l : List α) (d : α) :
    l.getD 0 d = l.headD d := by
  cases l <;> rfl

/-- The index-wise reading of `ContiguousFrom`. -/
theorem contiguousFrom_getD :
    ∀ (bs : List ContentBlock) (off : Nat), ContiguousFrom off bs →
      (bs ≠ [] → (bs.headD default).text_offset = off) ∧
      ∀ i, i + 1 < bs.length →
        (bs.getD (i + 1) default).text_offset =
          (bs.getD i default).text_offset + (bs.getD i default).text.length + 1 := by
  intro bs
  induction bs with
  | nil =>
    intro off _
    exact ⟨fun h => absurd rfl h, fun i hi => by simp at hi⟩
  | cons b bs ih =>
    intro off h
    obtain ⟨h1, h2⟩ := h
    obtain ⟨ihh, ihi⟩ := ih _ h2
    refine ⟨fun _ => by simpa using h1, ?_⟩
    intro i hi
    cases i with
    | zero =>
      simp only [List.getD_cons_succ, List.getD_cons_zero]
      rw [getD_zero_eq_headD]
      have hne : bs ≠ [] := by
        intro hb
        rw [hb] at hi
        simp at hi
      rw [ihh hne, h1]
    | succ j =>
      simp only [List.getD_cons_succ]
      exact ihi j (by simpa using hi)

/-! ## Lemmas: the chunk-building loops -/

theorem joinSpace_ne {l : List Str} (hne : l ≠ []) (h : ∀ t ∈ l, t ≠ []) :
    joinSpace l ≠ [] := by
  cases l with
  | nil => exact absurd rfl hne
  | cons x xs =>
    cases xs with
    | nil =>
      rw [joinSpace_singleton]
      exact h x (by simp)
    | cons y ys =>
      have hstep : joinSpace (x :: y :: ys) = x ++ ' ' :: joinSpace (y :: ys) := by
        simp [joinSpace, joinSep]
      rw [hstep]
      intro hc
      have := List.append_eq_nil.mp hc
      cases this.2

theorem recomputeGo_length (bs : List ContentBlock) :
    ∀ off, (recomputeGo bs off).length = bs.length := by
  induction bs with
  | nil => intro off; rfl
  | cons b bs ih => intro off; simp [recomputeGo, ih]

theorem recomputeTextOffsets_length (bs : List ContentBlock) :
    (recomputeTextOffsets bs).length = bs.length := recomputeGo_length bs 0

theorem reindexTailGo_length (pid : Str) (bs : List ContentBlock) :
    ∀ j, ((reindexTailGo pid bs j).1).length = bs.length := by
  induction bs with
  | nil => intro j; rfl
  | cons b bs ih => intro j; simp [reindexTailGo, ih]

theorem materialize_length (blocks : List ContentBlock) (pos : Nat) (p r : Str)
    (pid : Str) :
    (materializeBlockSplit blocks pos p r pid).length = blocks.length + 1 := by
  simp only [materializeBlockSplit]
  rw [recomputeTextOffsets_length]
  rw [List.length_append]
  split
  · rw [reindexTailGo_length]
    simp [List.length_take, List.length_drop]
    omega
  · rw [List.length_map, reindexTailGo_length]
    simp [List.length_take, List.length_drop]
    omega

/-- Invariant of the core-collection loop: collected texts are non-empty,
and as soon as a text exists an index exists; the block list never
shrinks. -/
theorem collectCoreGo_inv (count : Str → Nat) (page_id : Str) :
    ∀ (fuel : Nat) (st : CoreState),
      (∀ t ∈ st.txts, t ≠ []) → (st.txts ≠ [] → st.inds ≠ []) →
      (∀ t ∈ (collectCoreGo count page_id fuel st).txts, t ≠ []) ∧
      ((collectCoreGo count page_id fuel st).txts ≠ [] →
        (collectCoreGo count page_id fuel st).inds ≠ []) ∧
      st.blocks.length ≤ (collectCoreGo count page_id fuel st).blocks.length := by
  intro fuel
  induction fuel with
  | zero => intro st h1 h2; exact ⟨h1, h2, le_refl _⟩
  | succ fuel ih =>
    intro st h1 h2
    have happ : ∀ st' : CoreState,
        (∀ t ∈ st'.txts, t ≠ []) → (st'.txts ≠ [] → st'.inds ≠ []) →
        st.blocks.length ≤ st'.blocks.length →
        (∀ t ∈ (collectCoreGo count page_id fuel st').txts, t ≠ []) ∧
        ((collectCoreGo count page_id fuel st').txts ≠ [] →
          (collectCoreGo count page_id fuel st').inds ≠ []) ∧
        st.blocks.length ≤ (collectCoreGo count page_id fuel st').blocks.length := by
      intro st' a b c
      obtain ⟨x, y, z⟩ := ih st' a b
      exact ⟨x, y, le_trans c z⟩
    have hinds : ∀ (inds0 : List Nat) (i0 : Nat),
        (if inds0.contains i0 = true then inds0 else inds0 ++ [i0]) ≠ [] := by
      intro inds0 i0
      split
      next hmem =>
        intro hc
        subst hc
        simp at hmem
      next hmem => simp
    have htx : ∀ (txt : Str), txt ≠ [] → ∀ t ∈ st.txts ++ [txt], t ≠ [] := by
      intro txt htxt t ht
      rcases List.mem_append.mp ht with ht1 | ht2
      · exact h1 t ht1
      · simp only [List.mem_singleton] at ht2
        subst ht2
        exact htxt
    rw [collectCoreGo]
    split
    next hin =>
      cases hp : st.pending with
      | none =>
        simp only [hp]
        split
        next hempty => exact happ _ h1 h2 (le_refl _)
        next hempty =>
          have hct : (st.blocks.getD st.i default).text ≠ [] := by
            simpa using hempty
          split
          next hbt => exact happ _ (htx _ hct) (fun _ => hinds _ _) (le_refl _)
          next hbt =>
            split
            next hfrag => exact ⟨h1, h2, le_refl _⟩
            next hfrag =>
              have hft : (takeLead count (st.blocks.getD st.i default).text
                  st.budget st.txts.isEmpty).1 ≠ [] := by
                simpa using hfrag
              split
              next hrem =>
                exact ⟨htx _ hft, fun _ => hinds _ _, by simp [materialize_length]⟩
              next hrem => exact happ _ (htx _ hft) (fun _ => hinds _ _) (le_refl _)
      | some p =>
        simp only [hp]
        split
        next hpos =>
          split
          next hempty => exact happ _ h1 h2 (le_refl _)
          next hempty =>
            have hct : p.remaining_text ≠ [] := by simpa using hempty
            split
            next hbt => exact happ _ (htx _ hct) (fun _ => hinds _ _) (le_refl _)
            next hbt =>
              split
              next hfrag => exact ⟨h1, h2, le_refl _⟩
              next hfrag =>
                have hft : (takeLead count p.remaining_text
                    st.budget st.txts.isEmpty).1 ≠ [] := by
                  simpa using hfrag
                split
                next hrem => exact happ _ (htx _ hft) (fun _ => hinds _ _) (le_refl _)
                next hrem => exact happ _ (htx _ hft) (fun _ => hinds _ _) (le_refl _)
        next hpos =>
          split
          next hempty => exact happ _ h1 h2 (le_refl _)
          next hempty =>
            have hct : (st.blocks.getD st.i default).text ≠ [] := by
              simpa using hempty
            split
            next hbt => exact happ _ (htx _ hct) (fun _ => hinds _ _) (le_refl _)
            next hbt =>
              split
              next hfrag => exact ⟨h1, h2, le_refl _⟩
              next hfrag =>
                have hft : (takeLead count (st.blocks.getD st.i default).text
                    st.budget st.txts.isEmpty).1 ≠ [] := by
                  simpa using hfrag
                split
                next hrem => exact happ _ (htx _ hft) (fun _ => hinds _ _) (le_refl _)
                next hrem => exact happ _ (htx _ hft) (fun _ => hinds _ _) (le_refl _)
    next hin => exact ⟨h1, h2, le_refl _⟩

theorem mkChunk_fields (cfg : BuildCfg) (page_id page_title space_key : Str)
    (page_version : Nat) (last_modified : Str) (st : CoreState)
    (pre_full pre_text : List Str) (pre_nearest : Option Str)
    (ov_prev_indices : List Nat) (ov_prev_text : Str)
    (ov_prev_frags : List Fragment) :
    (mkChunk cfg page_id page_title space_key page_version last_modified st
        pre_full pre_text pre_nearest ov_prev_indices ov_prev_text
        ov_prev_frags).core_block_indices = st.inds ∧
    (mkChunk cfg page_id page_title space_key page_version last_modified st
        pre_full pre_text pre_nearest ov_prev_indices ov_prev_text
        ov_prev_frags).overlap_prev_block_indices =
      ov_prev_indices.filter (fun idx => !st.inds.contains idx) ∧
    (mkChunk cfg page_id page_title space_key page_version last_modified st
        pre_full pre_text pre_nearest ov_prev_indices ov_prev_text
        ov_prev_frags).overlap_next_block_indices = [] ∧
    (mkChunk cfg page_id page_title space_key page_version last_modified st
        pre_full pre_text pre_nearest ov_prev_indices ov_prev_text
        ov_prev_frags).normalized_text = joinSpace st.txts := by
  refine ⟨?_, ?_, ?_, ?_⟩ <;> simp [mkChunk]

theorem collectCore_from_init (count : Str → Nat) (page_id : Str) (fuel : Nat)
    (blocks : List ContentBlock) (start b : Nat) (pend : Option PendingBlock) :
    (∀ t ∈ (collectCoreGo count page_id fuel ⟨blocks, start, b, pend, [], [], []⟩).txts,
      t ≠ []) ∧
    ((collectCoreGo count page_id fuel ⟨blocks, start, b, pend, [], [], []⟩).txts ≠ [] →
      (collectCoreGo count page_id fuel ⟨blocks, start, b, pend, [], [], []⟩).inds ≠ []) ∧
    blocks.length ≤
      (collectCoreGo count page_id fuel ⟨blocks, start, b, pend, [], [], []⟩).blocks.length :=
  collectCoreGo_inv count page_id fuel ⟨blocks, start, b, pend, [], [], []⟩
    (by simp) (by simp)

theorem buildOneChunk_some (count : Str → Nat) (cfg : BuildCfg) (fuel : Nat)
    (blocks : List ContentBlock) (start : Nat) (heading_idx : HDict)
    (page_id page_title space_key : Str) (page_version : Nat)
    (last_modified : Str) (prev_chunk : Option Chunk)
    (pending0 : Option PendingBlock) (c : Chunk) (pos : Nat)
    (pd : Option PendingBlock) (bl : List ContentBlock)
    (h : buildOneChunk count cfg fuel blocks start heading_idx page_id page_title
      space_key page_version last_modified prev_chunk pending0 = (some c, pos, pd, bl)) :
    c.core_block_indices ≠ [] ∧ c.normalized_text ≠ [] ∧
    (∀ i ∈ c.core_block_indices, i ∉ c.overlap_prev_block_indices) ∧
    c.overlap_next_block_indices = [] := by
  simp only [buildOneChunk] at h
  obtain ⟨hq1, hq2, _⟩ := collectCore_from_init count page_id fuel blocks start
    ((degradeBudget cfg
      (estimateTagsTokensExact count cfg page_title blocks start heading_idx
        (prevOverlapOf count cfg prev_chunk).1).1
      (count (prevOverlapOf count cfg prev_chunk).2.1)
      (prevOverlapOf count cfg prev_chunk).1
      (prevOverlapOf count cfg prev_chunk).2.1).2.2) pending0
  split at h
  next hempty => simp at h
  next hempty =>
    have hc : c = mkChunk cfg page_id page_title space_key page_version
        last_modified
        (collectCoreGo count page_id fuel ⟨blocks, start,
          (degradeBudget cfg
            (estimateTagsTokensExact count cfg page_title blocks start heading_idx
              (prevOverlapOf count cfg prev_chunk).1).1
            (count (prevOverlapOf count cfg prev_chunk).2.1)
            (prevOverlapOf count cfg prev_chunk).1
            (prevOverlapOf count cfg prev_chunk).2.1).2.2, pending0, [], [], []⟩)
        (estimateTagsTokensExact count cfg page_title blocks start heading_idx
          (prevOverlapOf count cfg prev_chunk).1).2.1
        (estimateTagsTokensExact count cfg page_title blocks start heading_idx
          (prevOverlapOf count cfg prev_chunk).1).2.2.1
        (estimateTagsTokensExact count cfg page_title blocks start heading_idx
          (prevOverlapOf count cfg prev_chunk).1).2.2.2
        (degradeBudget cfg
          (estimateTagsTokensExact count cfg page_title blocks start heading_idx
            (prevOverlapOf count cfg prev_chunk).1).1
          (count (prevOverlapOf count cfg prev_chunk).2.1)
          (prevOverlapOf count cfg prev_chunk).1
          (prevOverlapOf count cfg prev_chunk).2.1).1
        (degradeBudget cfg
          (estimateTagsTokensExact count cfg page_title blocks start heading_idx
            (prevOverlapOf count cfg prev_chunk).1).1
          (count (prevOverlapOf count cfg prev_chunk).2.1)
          (prevOverlapOf count cfg prev_chunk).1
          (prevOverlapOf count cfg prev_chunk).2.1).2.1
        (prevOverlapOf count cfg prev_chunk).2.2 := by
      have h0 := congrArg Prod.fst h
      simpa using h0.symm
    obtain ⟨hcore, hprev, hnext, hnorm⟩ := mkChunk_fields cfg page_id page_title
      space_key page_version last_modified _ _ _ _ _ _ _
    rw [hc]
    have htne : (collectCoreGo count page_id fuel ⟨blocks, start,
        (degradeBudget cfg
          (estimateTagsTokensExact count cfg page_title blocks start heading_idx
            (prevOverlapOf count cfg prev_chunk).1).1
          (count (prevOverlapOf count cfg prev_chunk).2.1)
          (prevOverlapOf count cfg prev_chunk).1
          (prevOverlapOf count cfg prev_chunk).2.1).2.2, pending0, [], [], []⟩).txts ≠ [] := by
      simpa using hempty
    refine ⟨?_, ?_, ?_, ?_⟩
    · rw [hcore]
      exact hq2 htne
    · rw [hnorm]
      exact joinSpace_ne htne hq1
    · rw [hcore, hprev]
      intro i hi hmem
      rw [List.mem_filter] at hmem
      have h2 := hmem.2
      simp only [Bool.not_eq_true'] at h2
      have h3 : i ∉ (collectCoreGo count page_id fuel ⟨blocks, start,
          (degradeBudget cfg
            (estimateTagsTokensExact count cfg page_title blocks start heading_idx
              (prevOverlapOf count cfg prev_chunk).1).1
            (count (prevOverlapOf count cfg prev_chunk).2.1)
            (prevOverlapOf count cfg prev_chunk).1
            (prevOverlapOf count cfg prev_chunk).2.1).2.2, pending0, [], [], []⟩).inds := by
        simpa using h2
      exact h3 hi
    · exact hnext

theorem buildOneChunk_blocks_len (count : Str → Nat) (cfg : BuildCfg) (fuel : Nat)
    (blocks : List ContentBlock) (start : Nat) (heading_idx : HDict)
    (page_id page_title space_key : Str) (page_version : Nat)
    (last_modified : Str) (prev_chunk : Option Chunk)
    (pending0 : Option PendingBlock) :
    blocks.length ≤
      (buildOneChunk count cfg fuel blocks start heading_idx page_id page_title
        space_key page_version last_modified prev_chunk pending0).2.2.2.length := by
  simp only [buildOneChunk]
  obtain ⟨_, _, hlen⟩ := collectCore_from_init count page_id fuel blocks start
    ((degradeBudget cfg
      (estimateTagsTokensExact count cfg page_title blocks start heading_idx
        (prevOverlapOf count cfg prev_chunk).1).1
      (count (prevOverlapOf count cfg prev_chunk).2.1)
      (prevOverlapOf count cfg prev_chunk).1
      (prevOverlapOf count cfg prev_chunk).2.1).2.2) pending0
  split
  next => exact hlen
  next => exact hlen

theorem buildLoop_inv (count : Str → Nat) (cfg : BuildCfg)
    (page_id page_title space_key : Str) (page_version : Nat)
    (last_modified : Str) :
    ∀ (fuel : Nat) (blocks : List ContentBlock) (pos : Nat)
      (pend : Option PendingBlock) (chunks : List Chunk),
      (∀ c ∈ chunks,
        c.core_block_indices ≠ [] ∧ c.normalized_text ≠ [] ∧
        (∀ i ∈ c.core_block_indices, i ∉ c.overlap_prev_block_indices) ∧
        c.overlap_next_block_indices = []) →
      (∀ c ∈ (buildLoop count cfg page_id page_title space_key page_version
          last_modified fuel blocks pos pend chunks).1,
        c.core_block_indices ≠ [] ∧ c.normalized_text ≠ [] ∧
        (∀ i ∈ c.core_block_indices, i ∉ c.overlap_prev_block_indices) ∧
        c.overlap_next_block_indices = []) ∧
      blocks.length ≤ (buildLoop count cfg page_id page_title space_key
        page_version last_modified fuel blocks pos pend chunks).2.length := by
  intro fuel
  induction fuel with
  | zero => intro blocks pos pend chunks hch; exact ⟨hch, le_refl _⟩
  | succ fuel ih =>
    intro blocks pos pend chunks hch
    rw [buildLoop]
    split
    next hpos =>
      dsimp only
      rcases hr : buildOneChunk count cfg fuel blocks pos
        (buildHeadingIdxFromBlocks blocks) page_id page_title space_key
        page_version last_modified chunks.getLast? pend with ⟨copt, pos', pd', bl'⟩
      have hlen : blocks.length ≤ bl'.length := by
        have := buildOneChunk_blocks_len count cfg fuel blocks pos
          (buildHeadingIdxFromBlocks blocks) page_id page_title space_key
          page_version last_modified chunks.getLast? pend
        rw [hr] at this
        exact this
      cases copt with
      | none =>
        obtain ⟨ha, hb⟩ := ih bl' pos' pd' chunks hch
        exact ⟨ha, le_trans hlen hb⟩
      | some c =>
        have hc := buildOneChunk_some count cfg fuel blocks pos
          (buildHeadingIdxFromBlocks blocks) page_id page_title space_key
          page_version last_modified chunks.getLast? pend c pos' pd' bl' hr
        have hch' : ∀ x ∈ chunks ++ [c],
            x.core_block_indices ≠ [] ∧ x.normalized_text ≠ [] ∧
            (∀ i ∈ x.core_block_indices, i ∉ x.overlap_prev_block_indices) ∧
            x.overlap_next_block_indices = [] := by
          intro x hx
          rcases List.mem_append.mp hx with hx1 | hx2
          · exact hch x hx1
          · simp only [List.mem_singleton] at hx2
            subst hx2
            exact hc
        obtain ⟨ha, hb⟩ := ih bl' pos' pd' (chunks ++ [c]) hch'
        exact ⟨ha, le_trans hlen hb⟩
    next hpos => exact ⟨hch, le_refl _⟩

theorem rebuildTexts_fields (cfg : BuildCfg) (page_title : Str) (c : Chunk) :
    (rebuildTexts cfg page_title c).core_block_indices = c.core_block_indices ∧
    (rebuildTexts cfg page_title c).overlap_prev_block_indices =
      c.overlap_prev_block_indices ∧
    (rebuildTexts cfg page_title c).overlap_next_block_indices =
      c.overlap_next_block_indices ∧
    (rebuildTexts cfg page_title c).normalized_text = c.normalized_text := by
  refine ⟨?_, ?_, ?_, ?_⟩ <;> simp [rebuildTexts]

theorem applyNextTo_spec (count : Str → Nat) (cfg : BuildCfg) (page_title : Str)
    (c nxt : Chunk)
    (hc : c.core_block_indices ≠ [] ∧ c.normalized_text ≠ [] ∧
      (∀ i ∈ c.core_block_indices, i ∉ c.overlap_prev_block_indices) ∧
      c.overlap_next_block_indices = []) :
    (applyNextTo count cfg page_title c nxt).core_block_indices ≠ [] ∧
    (applyNextTo count cfg page_title c nxt).normalized_text ≠ [] ∧
    ∀ i ∈ (applyNextTo count cfg page_title c nxt).core_block_indices,
      i ∉ (applyNextTo count cfg page_title c nxt).overlap_prev_block_indices ∧
      i ∉ (applyNextTo count cfg page_title c nxt).overlap_next_block_indices := by
  obtain ⟨h1, h2, h3, h4⟩ := hc
  unfold applyNextTo
  dsimp only
  split
  next hov =>
    refine ⟨h1, h2, ?_⟩
    intro i hi
    refine ⟨h3 i hi, ?_⟩
    rw [h4]
    simp
  next hov =>
    refine ⟨?_, ?_, ?_⟩
    · rw [(rebuildTexts_fields cfg page_title _).1]
      exact h1
    · rw [(rebuildTexts_fields cfg page_title _).2.2.2]
      exact h2
    · intro i hi
      rw [(rebuildTexts_fields cfg page_title _).1] at hi
      have hi' : i ∈ c.core_block_indices := hi
      constructor
      · rw [(rebuildTexts_fields cfg page_title _).2.1]
        exact h3 i hi'
      · rw [(rebuildTexts_fields cfg page_title _).2.2.1]
        intro hmem
        have hx := (List.mem_filter.mp hmem).2
        simp only [Bool.not_eq_true'] at hx
        have hni : i ∉ c.core_block_indices := by simpa using hx
        exact hni hi'

theorem applyNextOverlap_inv (count : Str → Nat) (cfg : BuildCfg)
    (page_title : Str) :
    ∀ cs : List Chunk,
      (∀ c ∈ cs,
        c.core_block_indices ≠ [] ∧ c.normalized_text ≠ [] ∧
        (∀ i ∈ c.core_block_indices, i ∉ c.overlap_prev_block_indices) ∧
        c.overlap_next_block_indices = []) →
      ∀ x ∈ applyNextOverlap count cfg page_title cs,
        x.core_block_indices ≠ [] ∧ x.normalized_text ≠ [] ∧
        ∀ i ∈ x.core_block_indices,
          i ∉ x.overlap_prev_block_indices ∧ i ∉ x.overlap_next_block_indices := by
  intro cs
  induction cs with
  | nil => intro _ x hx; simp [applyNextOverlap] at hx
  | cons c cs ih =>
    intro hcs x hx
    cases cs with
    | nil =>
      simp only [applyNextOverlap, List.mem_singleton] at hx
      subst hx
      obtain ⟨h1, h2, h3, h4⟩ := hcs x (by simp)
      refine ⟨h1, h2, ?_⟩
      intro i hi
      exact ⟨h3 i hi, by rw [h4]; simp⟩
    | cons nxt rest =>
      simp only [applyNextOverlap] at hx
      rcases List.mem_cons.mp hx with rfl | hx2
      · exact applyNextTo_spec count cfg page_title c nxt (hcs c (by simp))
      · exact ih (fun y hy => hcs y (by simp [hy])) x hx2

/-! ## Lemmas: the parent-id remapping and the normalizer's text lists -/

theorem remapParent_fields (m : List (Bid × Bid)) (b : ContentBlock) :
    (remapParent m b).text_offset = b.text_offset ∧ (remapParent m b).text = b.text := by
  cases hp : b.parent_heading_id with
  | none => simp [remapParent, hp]
  | some pid =>
    cases hq : bidAssocFind m pid with
    | none => simp [remapParent, hp, hq]
    | some nid => simp [remapParent, hp, hq]

theorem remapParent_text (m : List (Bid × Bid)) (b : ContentBlock) :
    (remapParent m b).text = b.text := (remapParent_fields m b).2

theorem map_remap_text (m : List (Bid × Bid)) (bs : List ContentBlock) :
    (bs.map (remapParent m)).map (·.text) = bs.map (·.text) := by
  induction bs with
  | nil => rfl
  | cons b bs ih => simp only [List.map_cons, ih, remapParent_text]

theorem contig_map_remap (m : List (Bid × Bid)) (bs : List ContentBlock) (off : Nat)
    (h : ContiguousFrom off bs) : ContiguousFrom off (bs.map (remapParent m)) :=
  contig_map_preserve (remapParent_fields m) bs off h

theorem normReindexGo_texts (page_id : Str) (ps : List Piece) :
    ∀ n off, ((normReindexGo page_id ps n off).1).map (·.text) = ps.map (·.text) := by
  induction ps with
  | nil => intro n off; rfl
  | cons p ps ih =>
    intro n off
    simp only [normReindexGo, List.map_cons, mkContentBlock]
    rw [ih]

/-! ## Claim theorems -/

/-- C5 (code_bug evidence): `split_text(",,", 1)` returns the single part
`",,"` whose token count is `2 > 1`, so `split_text` does *not* guarantee
`count_tokens(part) <= max_tokens` for every returned part: an over-long
single word is passed through whole by `_split_by_words`. -/
theorem c5_split_text_part_overflow :
    splitText simpleCount [',', ','] 1 = [[',', ',']] ∧
    simpleCount [',', ','] = 2 := by decide

/-- C1 (code_bug evidence): with `chunk_size = 10`, `chunk_overlap = 0` and
no page/section tags (so the content budget stays at the full, undegraded
`chunk_size`), `build_chunks` on a single block whose text is one 12-token
word produces exactly one chunk, and that chunk's `embedding_text` counts
`12 > chunk_size` tokens — the token bound is violated outside the
documented degradation path. -/
theorem c1_embedding_text_overflow :
    cfgA.chunk_overlap = 0 ∧ cfgA.chunk_size = 10 ∧
    (degradeBudget cfgA 0 0 [] []).2.2 = cfgA.chunk_size ∧
    (buildChunks simpleCount cfgA 100 [blkA] [] ("p1".toList) ("T".toList)
      ("S".toList) 1 []).length = 1 ∧
    ∀ c ∈ buildChunks simpleCount cfgA 100 [blkA] [] ("p1".toList) ("T".toList)
        ("S".toList) 1 [],
      cfgA.chunk_size < simpleCount c.embedding_text := by decide

/-- C8 (counterexample): `build_chunks` does *not* consume the block list
read-only: on two blocks of sizes 2 and 4 tokens with `chunk_size = 6`, the
second block straddles a chunk boundary and `_build_one_chunk` materializes
its split in place, growing the list from 2 to 3 blocks. -/
theorem c8_read_only_counterexample : ¬ SpecClaimC8 := by
  intro h
  have h2 := (h cfgB 100 [blkB0, blkB1] [] ("p1".toList) ("T".toList) ("S".toList)
    1 []).1
  revert h2
  decide

/-- C8 (amended): what `build_chunks` does preserve of the block list is a
lower bound on its length — materialized splits only ever insert blocks, so
the list never shrinks (but it is rewritten in place, see the
counterexample). -/
theorem c8_blocks_never_shrink (count : Str → Nat) (cfg : BuildCfg) (fuel : Nat)
    (blocks : List ContentBlock) (headings : List HeadingInfo)
    (page_id page_title space_key : Str) (page_version : Nat)
    (last_modified : Str) :
    blocks.length ≤
      (buildChunksFull count cfg fuel blocks headings page_id page_title space_key
        page_version last_modified).2.length := by
  unfold buildChunksFull
  dsimp only
  split
  next => exact le_refl _
  next =>
    exact (buildLoop_inv count cfg page_id page_title space_key page_version
      last_modified fuel blocks 0 none [] (by simp)).2

/-- C3: for every chunk returned by `build_chunks` (whatever the
configuration, fuel or input), no block index lies simultaneously in
`core_block_indices` and in `overlap_prev_block_indices` or
`overlap_next_block_indices`: the overlap lists are disjoint from the core
by construction (prev-overlap candidates are filtered against the core in
`_build_one_chunk`, next-overlap ones in `_apply_next_overlap`). -/
theorem c3_core_overlap_disjoint (count : Str → Nat) (cfg : BuildCfg) (fuel : Nat)
    (blocks : List ContentBlock) (headings : List HeadingInfo)
    (page_id page_title space_key : Str) (page_version : Nat)
    (last_modified : Str) :
    ∀ c ∈ buildChunks count cfg fuel blocks headings page_id page_title space_key
        page_version last_modified,
      ∀ i ∈ c.core_block_indices,
        i ∉ c.overlap_prev_block_indices ∧ i ∉ c.overlap_next_block_indices := by
  intro c hc i hi
  unfold buildChunks buildChunksFull at hc
  dsimp only at hc
  split at hc
  next => simp at hc
  next =>
    split at hc
    next hov =>
      have h := applyNextOverlap_inv count cfg page_title
        (buildLoop count cfg page_id page_title space_key page_version last_modified
          fuel blocks 0 none []).1
        (buildLoop_inv count cfg page_id page_title space_key page_version
          last_modified fuel blocks 0 none [] (by simp)).1 c hc
      exact h.2.2 i hi
    next hov =>
      have h := (buildLoop_inv count cfg page_id page_title space_key page_version
        last_modified fuel blocks 0 none [] (by simp)).1 c hc
      exact ⟨h.2.2.1 i hi, by rw [h.2.2.2]; simp⟩

theorem c3_core_overlap_disjoint_witness :
    0 ∉ ((buildChunks simpleCount cfgC 100 [blkD0, blkD1] [] ("p1".toList)
        ("T".toList) ("S".toList) 1 []).headD default).overlap_prev_block_indices ∧
    0 ∉ ((buildChunks simpleCount cfgC 100 [blkD0, blkD1] [] ("p1".toList)
        ("T".toList) ("S".toList) 1 []).headD default).overlap_next_block_indices :=
  c3_core_overlap_disjoint simpleCount cfgC 100 [blkD0, blkD1] [] ("p1".toList)
    ("T".toList) ("S".toList) 1 []
    ((buildChunks simpleCount cfgC 100 [blkD0, blkD1] [] ("p1".toList)
      ("T".toList) ("S".toList) 1 []).headD default)
    (by decide) 0 (by decide)

/-- C10: `build_chunks` on an empty block list returns no chunks, and every
chunk it ever returns has non-empty `core_block_indices` and non-empty
`normalized_text` (a candidate that acquired no core content is dropped,
not appended). -/
theorem c10_chunks_nonempty :
    (∀ (count : Str → Nat) (cfg : BuildCfg) (fuel : Nat)
      (headings : List HeadingInfo) (page_id page_title space_key : Str)
      (page_version : Nat) (last_modified : Str),
      buildChunks count cfg fuel [] headings page_id page_title space_key
        page_version last_modified = []) ∧
    ∀ (count : Str → Nat) (cfg : BuildCfg) (fuel : Nat)
      (blocks : List ContentBlock) (headings : List HeadingInfo)
      (page_id page_title space_key : Str) (page_version : Nat)
      (last_modified : Str),
      ∀ c ∈ buildChunks count cfg fuel blocks headings page_id page_title
          space_key page_version last_modified,
        c.core_block_indices ≠ [] ∧ c.normalized_text ≠ [] := by
  constructor
  · intro _ _ _ _ _ _ _ _ _
    rfl
  · intro count cfg fuel blocks headings page_id page_title space_key
      page_version last_modified c hc
    unfold buildChunks buildChunksFull at hc
    dsimp only at hc
    split at hc
    next => simp at hc
    next =>
      split at hc
      next hov =>
        have h := applyNextOverlap_inv count cfg page_title
          (buildLoop count cfg page_id page_title space_key page_version
            last_modified fuel blocks 0 none []).1
          (buildLoop_inv count cfg page_id page_title space_key page_version
            last_modified fuel blocks 0 none [] (by simp)).1 c hc
        exact ⟨h.1, h.2.1⟩
      next hov =>
        have h := (buildLoop_inv count cfg page_id page_title space_key
          page_version last_modified fuel blocks 0 none [] (by simp)).1 c hc
        exact ⟨h.1, h.2.1⟩

theorem c10_chunks_nonempty_witness :
    ((buildChunks simpleCount cfgA 100 [blkA] [] ("p1".toList) ("T".toList)
        ("S".toList) 1 []).headD default).core_block_indices ≠ [] ∧
    ((buildChunks simpleCount cfgA 100 [blkA] [] ("p1".toList) ("T".toList)
        ("S".toList) 1 []).headD default).normalized_text ≠ [] :=
  c10_chunks_nonempty.2 simpleCount cfgA 100 [blkA] [] ("p1".toList) ("T".toList)
    ("S".toList) 1 []
    ((buildChunks simpleCount cfgA 100 [blkA] [] ("p1".toList) ("T".toList)
      ("S".toList) 1 []).headD default)
    (by decide)

/-- C2 (counterexample): after normalization a block can still exceed the
empty-chunk budget of its position: an `h1` heading block of 11 tokens is
passed through the normalizer whole (heading blocks are never split),
while the budget at its position is `max(10, 10 - 0 - 0) = 10`. -/
theorem c2_normalizer_counterexample : ¬ SpecClaimC2 := by
  intro h
  have h2 := h cfgA [blkC2] [] ("T".toList) 0 blkC2 (by decide)
    (pieceOf blkC2 blkC2.text) (by decide)
  revert h2
  decide

/-- C2 (amended): what the normalizer does guarantee.  (1) Every piece it
produces for the block at position `pos` is a heading piece (headings are
never split), or a single whitespace-free word (an over-long word is passed
through whole by `_split_by_words`), or fits that position's empty-chunk
budget.  (2) The normalized block list carries exactly the pieces' texts in
order, so (1) transfers to the returned blocks. -/
theorem c2_normalizer_amended :
    (∀ (cfg : BuildCfg) (blocks : List ContentBlock) (headings : List HeadingInfo)
      (page_title : Str) (pos : Nat) (b : ContentBlock),
      ∀ p ∈ normPiecesAt simpleCount cfg blocks headings page_title pos b,
        isHeadingType p.block_type = true ∨ NoSpace p.text ∨
          simpleCount p.text ≤
            normBudget simpleCount cfg blocks headings page_title pos) ∧
    ∀ (cfg : BuildCfg) (blocks : List ContentBlock) (headings : List HeadingInfo)
      (page_id page_title : Str),
      ((normalizeBlocksForChunking simpleCount cfg blocks headings page_id
          page_title).1).map (·.text) =
        (normPieces simpleCount cfg blocks headings page_title).map (·.text) := by
  constructor
  · intro cfg blocks headings page_title pos b p hp
    unfold normPiecesAt at hp
    dsimp only at hp
    split at hp
    next => simp at hp
    next hne0 =>
      split at hp
      next hh =>
        simp only [List.mem_singleton] at hp
        subst hp
        exact Or.inl hh
      next hh =>
        split at hp
        next hle =>
          simp only [List.mem_singleton] at hp
          subst hp
          exact Or.inr (Or.inr hle)
        next hgt =>
          have hsne : strip b.text ≠ [] := fun hc => hne0 (by simp [hc])
          have hne1 : ¬ ((splitText simpleCount b.text
              (normBudget simpleCount cfg blocks headings page_title pos)).isEmpty
                = true) := by
            simp only [List.isEmpty_iff]
            exact splitText_ne _ hsne
          rw [if_neg hne1] at hp
          rw [List.mem_map] at hp
          obtain ⟨q, hq, rfl⟩ := hp
          have hq1 := (List.mem_filter.mp hq).1
          rw [List.mem_map] at hq1
          obtain ⟨part, hpart, rfl⟩ := hq1
          have hs := splitText_spec b.text _ part hpart
          rcases hs.1 with hle | hns
          · exact Or.inr (Or.inr (by simpa [pieceOf, simpleCount_strip] using hle))
          · refine Or.inr (Or.inl ?_)
            intro c hcm
            exact hns c ((strip_sublist part).subset hcm)
  · intro cfg blocks headings page_id page_title
    unfold normalizeBlocksForChunking
    dsimp only
    split
    next he =>
      have hb : blocks = [] := List.isEmpty_iff.mp he
      subst hb
      rfl
    next he =>
      rw [map_remap_text, normReindexGo_texts]

theorem c2_normalizer_witness :
    isHeadingType (pieceOf blkC2 blkC2.text).block_type = true ∨
    NoSpace (pieceOf blkC2 blkC2.text).text ∨
    simpleCount (pieceOf blkC2 blkC2.text).text ≤
      normBudget simpleCount cfgA [blkC2] [] ("T".toList) 0 :=
  c2_normalizer_amended.1 cfgA [blkC2] [] ("T".toList) 0 blkC2
    (pieceOf blkC2 blkC2.text) (by decide)

/-- C4 (counterexample): when even the first sentence exceeds the budget,
`take_prefix(text, m, must_take=False)` does *not* return the text itself
as remainder: the remainder is rebuilt by strip-join-strip, which collapses
inner whitespace (`"a.  b."` comes back as `"a. b."`). -/
theorem c4_take_lead_counterexample : ¬ SpecClaimC4 := by
  intro h
  have h2 := (h ("a.  b.".toList) 0 (by decide) (by decide)).1
  revert h2
  decide

/-- C4 (amended): (1) in general (for any text with at least one sentence
and any budget), `take_prefix` with `must_take=False` is exactly greedy
whole-sentence accumulation — the prefix is the strip-join rendering of the
sentences whose cumulative token count fits, the remainder the strip-join
rendering of the rest, not a verbatim slice of the original text; (2) when
even the first sentence exceeds the budget, the `must_take=False` prefix is
empty, and the `must_take=True` prefix is the stripped first word-split
part of that sentence — in particular non-empty, so an empty chunk always
makes forward progress. -/
theorem c4_take_lead_amended :
    (∀ (t : Str) (m : Nat), splitIntoSentences t ≠ [] →
      takeLead simpleCount t m false =
        (strip (joinStripped (greedySplit simpleCount m (splitIntoSentences t) 0).1),
         strip (joinStripped (greedySplit simpleCount m (splitIntoSentences t) 0).2))) ∧
    ∀ (t : Str) (m : Nat), splitIntoSentences t ≠ [] →
      m < simpleCount ((splitIntoSentences t).headD []) →
      (takeLead simpleCount t m false).1 = [] ∧
      (takeLead simpleCount t m true).1 =
        strip ((splitByWords simpleCount ((splitIntoSentences t).headD []) m).headD []) ∧
      (takeLead simpleCount t m true).1 ≠ [] := by
  refine ⟨takeLead_false_eq, ?_⟩
  intro t m h1 h2
  obtain ⟨s0, rest, hss⟩ : ∃ s0 rest, splitIntoSentences t = s0 :: rest := by
    cases hs : splitIntoSentences t with
    | nil => exact absurd hs h1
    | cons a b => exact ⟨a, b, rfl⟩
  have hgt : ¬ (0 + simpleCount s0 ≤ m) := by
    rw [hss] at h2
    simp only [List.headD_cons] at h2
    omega
  refine ⟨?_, (takeLead_true_first_exceeds t m h1 h2).1,
    (takeLead_true_first_exceeds t m h1 h2).2⟩
  rw [takeLead_false_eq t m h1]
  show strip (joinStripped (greedySplit simpleCount m (splitIntoSentences t) 0).1) = []
  rw [hss]
  simp only [greedySplit]
  rw [if_neg hgt]
  rfl

theorem c4_take_lead_witness :
    (takeLead simpleCount ("aa bb. cc dd.".toList) 3 false =
      (strip (joinStripped
        (greedySplit simpleCount 3 (splitIntoSentences ("aa bb. cc dd.".toList)) 0).1),
       strip (joinStripped
        (greedySplit simpleCount 3 (splitIntoSentences ("aa bb. cc dd.".toList)) 0).2))) ∧
    (takeLead simpleCount ("aa bb.".toList) 1 true).1 ≠ [] :=
  ⟨c4_take_lead_amended.1 ("aa bb. cc dd.".toList) 3 (by decide),
   (c4_take_lead_amended.2 ("aa bb.".toList) 1 (by decide) (by decide)).2.2⟩

/-- C6: for a chunk whose first block is not itself a heading (no entry for
its index in the heading dictionary), `_build_heading_hierarchy` resolves
the hierarchy through the block's `parent_heading_id` back-reference and
then climbs: the result is the text chain of a heading sequence that starts
at the referenced heading, where each step goes to the heading with the
largest block index among those with strictly smaller level and strictly
earlier block index (`IsClimbStep`), the last element admits no further
step, and levels strictly decrease along the chain (least-important first);
`text_heading_hierarchy` is always the first `max_heading_levels` entries
of the full hierarchy, and a missing or unresolvable back-reference yields
the empty hierarchy. -/
theorem c6_heading_hierarchy (cfg : BuildCfg) (first : ContentBlock)
    (rest : List ContentBlock) (idx : HDict)
    (hfirst : hdictFind idx first.index = none) :
    ((buildHeadingHierarchy cfg (first :: rest) idx).2.1 =
      (buildHeadingHierarchy cfg (first :: rest) idx).1.take cfg.max_heading_levels) ∧
    (first.parent_heading_id = none →
      buildHeadingHierarchy cfg (first :: rest) idx = ([], [], none)) ∧
    ∀ pid, first.parent_heading_id = some pid →
      ((hdictValues idx).find? (fun h => h.block_id == pid) = none →
        buildHeadingHierarchy cfg (first :: rest) idx = ([], [], none)) ∧
      ∀ start, (hdictValues idx).find? (fun h => h.block_id == pid) = some start →
        ∃ chain : List HeadingInfo,
          (buildHeadingHierarchy cfg (first :: rest) idx).1 = chain.map (·.text) ∧
          chain ≠ [] ∧
          chain.headD default = start ∧
          PairwiseNext (IsClimbStep (hdictValues idx)) chain ∧
          NoClimbStep (hdictValues idx) (chain.getLastD default) ∧
          PairwiseNext (fun a b => b.level < a.level) chain := by
  have hred : buildHeadingHierarchy cfg (first :: rest) idx =
      (match first.parent_heading_id with
       | none => ([], [], none)
       | some pid =>
         match (hdictValues idx).find? (fun h => h.block_id == pid) with
         | none => ([], [], none)
         | some h =>
           (climbTexts idx h, (climbTexts idx h).take cfg.max_heading_levels,
            h.html_id)) := by
    unfold buildHeadingHierarchy
    dsimp only
    rw [hfirst]
  refine ⟨?_, ?_, ?_⟩
  · cases hp : first.parent_heading_id with
    | none => simp [hred, hp]
    | some pid =>
      cases hf : (hdictValues idx).find? (fun h => h.block_id == pid) with
      | none => simp [hred, hp, hf]
      | some h => simp [hred, hp, hf]
  · intro hp
    simp [hred, hp]
  · intro pid hp
    refine ⟨?_, ?_⟩
    · intro hf
      simp [hred, hp, hf]
    · intro start hf
      refine ⟨climbChain idx start, ?_, ?_, ?_, ?_, ?_, ?_⟩ <;>
        first
        | (simp only [hred, hp, hf]; rfl)
        | skip
      · exact (climbChainGo_spec idx (start.block_index + 1) start
          (Nat.lt_succ_self _)).1
      · exact (climbChainGo_spec idx (start.block_index + 1) start
          (Nat.lt_succ_self _)).2.1
      · exact (climbChainGo_spec idx (start.block_index + 1) start
          (Nat.lt_succ_self _)).2.2.1
      · exact (climbChainGo_spec idx (start.block_index + 1) start
          (Nat.lt_succ_self _)).2.2.2.1
      · exact (climbChainGo_spec idx (start.block_index + 1) start
          (Nat.lt_succ_self _)).2.2.2.2

theorem c6_heading_hierarchy_witness :
    (buildHeadingHierarchy cfgA [blkP] idxW).2.1 =
      (buildHeadingHierarchy cfgA [blkP] idxW).1.take cfgA.max_heading_levels :=
  (c6_heading_hierarchy cfgA blkP [] idxW (by decide)).1

/-- C7: text offsets are contiguous (`block[0].text_offset = 0` and
`block[i+1].text_offset = block[i].text_offset + len(block[i].text) + 1`)
after each of the operations that lay blocks out: the parser's
`_create_block` fold, `_recompute_text_offsets`,
`normalize_blocks_for_chunking`, and `_materialize_block_split`. -/
theorem c7_offsets_contiguous :
    (∀ (page_id : Str) (items : List RawItem),
      OffsetsContiguous (parserEmit page_id items).1) ∧
    (∀ blocks : List ContentBlock, OffsetsContiguous (recomputeTextOffsets blocks)) ∧
    (∀ (count : Str → Nat) (cfg : BuildCfg) (blocks : List ContentBlock)
      (headings : List HeadingInfo) (page_id page_title : Str),
      OffsetsContiguous
        (normalizeBlocksForChunking count cfg blocks headings page_id page_title).1) ∧
    ∀ (blocks : List ContentBlock) (split_pos : Nat) (pfx_text rem_text page_id : Str),
      OffsetsContiguous
        (materializeBlockSplit blocks split_pos pfx_text rem_text page_id) := by
  have bridge : ∀ bs : List ContentBlock, ContiguousFrom 0 bs → OffsetsContiguous bs :=
    fun bs h => contiguousFrom_getD bs 0 h
  refine ⟨?_, ?_, ?_, ?_⟩
  · intro page_id items
    exact bridge _ (parserEmit_fold_inv page_id items ⟨0, 0, [], [], []⟩ trivial rfl).1
  · intro blocks
    exact bridge _ (recomputeGo_contig blocks 0)
  · intro count cfg blocks headings page_id page_title
    unfold normalizeBlocksForChunking
    dsimp only
    split
    next => exact ⟨fun h => absurd rfl h, fun i hi => by simp at hi⟩
    next =>
      exact bridge _ (contig_map_remap _ _ 0 (normReindexGo_contig page_id _ 0 0))
  · intro blocks split_pos pfx_text rem_text page_id
    unfold materializeBlockSplit
    dsimp only
    exact bridge _ (recomputeGo_contig _ 0)

theorem c7_offsets_contiguous_witness :
    OffsetsContiguous (recomputeTextOffsets [blkB0, blkB1]) :=
  c7_offsets_contiguous.2.1 [blkB0, blkB1]

end EduChunker
